import Mathlib

/-!
Verification of the n-gram similarity index (`ngram.py`).

The program is a set-like container indexing its members by fixed-width
substrings ("n-grams") of a padded key string.  We embed the module shallowly:

* Python dicts become association lists (`List (κ × β)`) with Python's
  insertion-order semantics: updates replace the first matching entry in
  place, fresh keys are appended at the end, `del` fails on a missing key.
* Python strings become `List Char`; numbers become `ℚ`/`ℤ`/`ℕ`; the
  float-valued similarity is idealised over `ℝ` (with real exponentiation
  for the warp formula).
* Statements that can raise (`del`, `self.length[match]`) return `Option`
  or carry an explicit error flag, and mutations performed before the
  raise are kept, matching Python exception semantics.
-/

namespace NGramVerify

section AssocList

variable {κ : Type} {β : Type} [DecidableEq κ]

/-- Dictionary lookup `d[k]` returning `none` when the key is absent
(first matching entry wins; in a dict no duplicate key is observable). -/
def alookup : List (κ × β) → κ → Option β
  | [], _ => none
  | (k0, v0) :: rest, k => if k = k0 then some v0 else alookup rest k

/-- Key list of an association list. -/
def akeys (l : List (κ × β)) : List κ := l.map Prod.fst

/-- Dictionary assignment `d[k] = v`: replace the first entry for `k` in
place, or append a fresh entry at the end (Python insertion order). -/
def aset : List (κ × β) → κ → β → List (κ × β)
  | [], k, v => [(k, v)]
  | (k0, v0) :: rest, k, v => if k = k0 then (k, v) :: rest else (k0, v0) :: aset rest k v

/-- The effect of `d.setdefault(k, v)` on the dictionary: insert `k ↦ v`
only when `k` is absent. -/
def asetd (l : List (κ × β)) (k : κ) (v : β) : List (κ × β) :=
  if (alookup l k).isSome then l else l ++ [(k, v)]

/-- The effect of `del d[k]`: `none` models the `KeyError` raised when the
key is absent. -/
def adel : List (κ × β) → κ → Option (List (κ × β))
  | [], _ => none
  | (k0, v0) :: rest, k =>
    if k = k0 then some rest else (adel rest k).map (fun r => (k0, v0) :: r)

end AssocList

/-- An n-gram, i.e. a fixed-width substring of a padded key string. -/
abbrev Gram : Type := List Char

/-- One bucket of the inverted index `_grams`: for a fixed n-gram, the map
from member to the number of occurrences of that n-gram in the member's
padded key (`{item: int, ...}` in the source). -/
abbrev Bucket (α : Type) : Type := List (α × ℕ)

/-- State of an `NGram` instance: the base set of members (`set` superclass),
the `length` map from member to padded-key length, the `_grams` inverted
index, and the constructor-derived configuration (`threshold`, `warp`,
`key`, `N`, and the derived `_padding` string `pad_char * pad_len`). -/
structure NGramIndex (α : Type) where
  members : List α
  length : List (α × ℕ)
  grams : List (Gram × Bucket α)
  threshold : ℚ
  warp : ℚ
  key : α → List Char
  N : ℕ
  padding : List Char

variable {α : Type} [DecidableEq α]

/-- Constructor validation of `NGram.__init__` (lines 74-87 of the source):
each `if not (...): raise ValueError(...)` check, in order.  `pad_len = none`
models the `pad_len=None` default (replaced by `N-1` after the `N` check);
`key_callable` abstracts the dynamic check `key is None or
hasattr(key, "__call__")`. -/
def initValidate (threshold warp : ℚ) (N : ℤ) (pad_len : Option ℤ)
    (pad_char : List Char) (key_callable : Bool) : Except String Unit :=
  if ¬(0 ≤ threshold ∧ threshold ≤ 1) then Except.error "Threshold outside 0.0 to 1.0 range"
  else if ¬(1 ≤ warp ∧ warp ≤ 3) then Except.error "Warp outside 1.0 to 3.0 range"
  else if ¬(1 ≤ N) then Except.error "N needs to be >= 1"
  else
    let pl := pad_len.getD (N - 1)
    if ¬(0 ≤ pl ∧ pl < N) then Except.error "pad_len is outside 0 to N range"
    else if ¬(pad_char.length = 1) then Except.error "pad_char is not a single-character string"
    else if ¬key_callable then Except.error "key is not a function"
    else Except.ok ()

namespace NGramIndex

/-- The method `pad`: surround the string with the derived padding string. -/
def pad (s : NGramIndex α) (x : List Char) : List Char :=
  s.padding ++ x ++ s.padding

/-- The method `_split`: the n-grams of a string without padding, i.e.
`string[i:i+N]` for `i in range(len(string) - N + 1)`.  Over `ℕ`,
`len + 1 - N` equals Python's `max(0, len - N + 1)` range length. -/
def splitNoPad (N : ℕ) (x : List Char) : List Gram :=
  (List.range (x.length + 1 - N)).map (fun i => (x.drop i).take N)

/-- The method `split`: pad the string and take its n-grams. -/
def split (s : NGramIndex α) (x : List Char) : List Gram :=
  splitNoPad s.N (s.pad x)

/-- The method `splititem`: n-grams of the padded key of an item. -/
def splititem (s : NGramIndex α) (item : α) : List Gram :=
  s.split (s.key item)

/-- One loop iteration of `add`:
`self._grams.setdefault(ngram, {}).setdefault(item, 0)` followed by
`self._grams[ngram][item] += 1`. -/
def addGramOne (gr : List (Gram × Bucket α)) (g : Gram) (item : α) :
    List (Gram × Bucket α) :=
  let gr1 := asetd gr g []
  let b1 := asetd ((alookup gr1 g).getD []) item 0
  let c := (alookup b1 item).getD 0
  aset gr1 g (aset b1 item (c + 1))

/-- The method `add`: if the item is not yet a member, add it to the base
set, record the padded-key length, and count every n-gram occurrence of the
padded key into `_grams`. -/
def add (s : NGramIndex α) (item : α) : NGramIndex α :=
  if item ∈ s.members then s
  else
    let padded_item := s.pad (s.key item)
    { s with
      members := s.members ++ [item]
      length := aset s.length item padded_item.length
      grams := (splitNoPad s.N padded_item).foldl (fun gr g => addGramOne gr g item) s.grams }

/-- The `remove` loop `for ngram in self.splititem(item): del self._grams[ngram][item]`.
Each `del` first indexes `self._grams[ngram]` (KeyError when the bucket is
missing) and then deletes `item` from the bucket (KeyError when the entry is
missing).  The flag records whether a KeyError was raised; mutations made
before the raise are kept, and the loop stops there. -/
def delGramsLoop (item : α) : List Gram → List (Gram × Bucket α) →
    Bool × List (Gram × Bucket α)
  | [], gr => (false, gr)
  | g :: rest, gr =>
    match alookup gr g with
    | none => (true, gr)
    | some b =>
      match adel b item with
      | none => (true, gr)
      | some b' => delGramsLoop item rest (aset gr g b')

/-- The method `remove`: when the item is a member, remove it from the base
set, `del self.length[item]`, then delete its entry from every n-gram bucket
of its re-derived split.  The Boolean is `true` when a `KeyError` escapes;
the returned state holds all mutations applied before the raise. -/
def removeRun (s : NGramIndex α) (item : α) : Bool × NGramIndex α :=
  if item ∈ s.members then
    let s1 := { s with members := s.members.erase item }
    match adel s1.length item with
    | none => (true, s1)
    | some len' =>
      let s2 := { s1 with length := len' }
      let r := delGramsLoop item (s2.splititem item) s2.grams
      (r.1, { s2 with grams := r.2 })
  else (false, s)

/-- Intermediate state of `items_sharing_ngrams`: the `shared` accumulator
(member to number of shared n-grams) and the `remaining` map (n-gram to
member to occurrences not yet matched). -/
structure ISNState (α : Type) where
  shared : List (α × ℕ)
  remaining : List (Gram × List (α × ℕ))

/-- Inner loop body of `items_sharing_ngrams` for one `(match, count)` pair
of the bucket of `ngram`: `remaining.setdefault(ngram, {}).setdefault(match,
count)`, then if `remaining[ngram][match] > 0` decrement it and add one to
`shared[match]` (creating it at 0 first). -/
def isnEntry (g : Gram) (st : ISNState α) (mc : α × ℕ) : ISNState α :=
  let rem1 := asetd st.remaining g []
  let rb1 := asetd ((alookup rem1 g).getD []) mc.1 mc.2
  let rem2 := aset rem1 g rb1
  let rc := (alookup rb1 mc.1).getD 0
  if 0 < rc then
    { shared :=
        let sh1 := asetd st.shared mc.1 0
        aset sh1 mc.1 ((alookup sh1 mc.1).getD 0 + 1)
      remaining := aset rem2 g (aset rb1 mc.1 (rc - 1)) }
  else
    { st with remaining := rem2 }

/-- Outer loop body of `items_sharing_ngrams` for one n-gram of the query:
iterate over the bucket `self._grams[ngram]`; a missing bucket raises
`KeyError`, which the `try`/`except` swallows (`pass`). -/
def isnGram (gr : List (Gram × Bucket α)) (st : ISNState α) (g : Gram) : ISNState α :=
  match alookup gr g with
  | none => st
  | some b => b.foldl (isnEntry g) st

/-- The method `items_sharing_ngrams`: the map from member to number of
n-grams shared with the query string. -/
def items_sharing_ngrams (s : NGramIndex α) (query : List Char) : List (α × ℕ) :=
  ((s.split query).foldl (isnGram s.grams) ⟨[], []⟩).shared

end NGramIndex

/-- The static method `_similarity`: `samegrams / allgrams` when
`abs(warp - 1.0) < 1e-9`, otherwise
`(allgrams**warp - diffgrams**warp) / allgrams**warp` with
`diffgrams = allgrams - samegrams`, using real exponentiation for the
float `**`. -/
noncomputable def similarityFn (samegrams allgrams : ℤ) (warp : ℚ) : ℝ :=
  if |warp - 1| < 1 / 1000000000 then
    (samegrams : ℝ) / (allgrams : ℝ)
  else
    let diffgrams : ℝ := ((allgrams : ℝ) - (samegrams : ℝ))
    ((allgrams : ℝ) ^ (warp : ℝ) - diffgrams ^ (warp : ℝ)) / ((allgrams : ℝ) ^ (warp : ℝ))

namespace NGramIndex

/-- The `allgrams` expression of `search`:
`len(self.pad(query)) + self.length[match] - (2 * self.N) - samegrams + 2`,
given the looked-up `self.length[match]` value. -/
def allgramsVal (s : NGramIndex α) (query : List Char) (mlen : ℕ) (samegrams : ℕ) : ℤ :=
  ((s.pad query).length : ℤ) + (mlen : ℤ) - (2 * (s.N : ℤ)) - (samegrams : ℤ) + 2

/-- One iteration of the result loop of `search`: look up
`self.length[match]` (a missing entry raises `KeyError`, propagated as
`none`), compute `allgrams` and `similarity`, and append the pair when
`similarity >= threshold`. -/
noncomputable def searchStep (s : NGramIndex α) (query : List Char) (t : ℚ)
    (acc : Option (List (α × ℝ))) (mg : α × ℕ) : Option (List (α × ℝ)) :=
  match acc with
  | none => none
  | some results =>
    match alookup s.length mg.1 with
    | none => none
    | some mlen =>
      let allgrams := s.allgramsVal query mlen mg.2
      let similarity := similarityFn (mg.2 : ℤ) allgrams s.warp
      if (t : ℝ) ≤ similarity then some (results ++ [(mg.1, similarity)])
      else some results

/-- The final `results.sort(key=lambda x: x[1], reverse=True)` of `search`:
a stable sort by non-increasing similarity. -/
noncomputable def sortDesc (l : List (α × ℝ)) : List (α × ℝ) :=
  letI : DecidableRel (fun (a b : α × ℝ) => b.2 ≤ a.2) :=
    fun a b => Real.decidableLE b.2 a.2
  List.insertionSort (fun a b => b.2 ≤ a.2) l

/-- The similarity `search` assigns to a candidate `(match, samegrams)`
pair returned by `items_sharing_ngrams`. -/
noncomputable def simVal (s : NGramIndex α) (query : List Char) (mg : α × ℕ) : ℝ :=
  similarityFn (mg.2 : ℤ)
    (s.allgramsVal query ((alookup s.length mg.1).getD 0) mg.2) s.warp

/-- The method `search`: score every candidate returned by
`items_sharing_ngrams`, keep those with `similarity >= threshold`
(the caller's threshold or, when `none`, the configured default), and sort
the `(item, similarity)` pairs by decreasing similarity.  The lookup
`self.length[match]` can raise `KeyError` (uncaught), modelled by `none`. -/
noncomputable def search? (s : NGramIndex α) (query : List Char) (threshold : Option ℚ) :
    Option (List (α × ℝ)) :=
  let t : ℚ := threshold.getD s.threshold
  ((s.items_sharing_ngrams query).foldl (searchStep s query t) (some [])).map sortDesc

/-- The method `searchitem`: `return self.search(self.key(item))` — note the
`threshold` parameter is accepted but not forwarded. -/
noncomputable def searchitem? (s : NGramIndex α) (item : α) (_threshold : Option ℚ) :
    Option (List (α × ℝ)) :=
  s.search? (s.key item) none

/-- The method `finditem`: first result of `searchitem`, `none` when the
result list is empty.  The outer `Option` models an escaping exception. -/
noncomputable def finditem? (s : NGramIndex α) (item : α) (threshold : Option ℚ) :
    Option (Option α) :=
  (s.searchitem? item threshold).map
    (fun results => match results with
      | [] => none
      | r :: _ => some r.1)

/-- The method `update`: `for item in items: self.add(item)`. -/
def update (s : NGramIndex α) (items : List α) : NGramIndex α :=
  items.foldl add s

/-- The method `symmetric_difference_update`: record the intersection
(inherited `set.intersection`, unused), `self.update(other)`, then
`self.difference_update(self, intersection)` — a call that passes three
arguments to a two-parameter method, which raises `TypeError` before the
body of `difference_update` runs.  The flag records that raise; the state
keeps the mutation made by `update`. -/
def symmetric_difference_update (s : NGramIndex α) (other : List α) :
    Bool × NGramIndex α :=
  let _intersection := s.members.filter (fun x => x ∈ other)
  let s1 := s.update other
  (true, s1)

end NGramIndex

/-- Index produced by `NGram(items)` with all-default constructor arguments
(`threshold=0.0`, `warp=1.0`, `key=None` i.e. identity, `N=3`,
`pad_len=N-1=2`, `pad_char='$'`), whose `__init__` ends with
`self.update(items)` from the empty state. -/
def emptyDefault : NGramIndex (List Char) :=
  { members := []
    length := []
    grams := []
    threshold := 0
    warp := 1
    key := id
    N := 3
    padding := ['$', '$'] }

/-- Index built by `NGram(items)` with default configuration. -/
def ngramOf (items : List (List Char)) : NGramIndex (List Char) :=
  emptyDefault.update items

/-- The static method `compare` with default keyword arguments:
`NGram([s1]).search(s2)[0][1]`, catching `IndexError` (empty result list)
as `0.0`.  The outer `Option` models any other escaping exception (none
occurs on this freshly built index). -/
noncomputable def compare? (s1 s2 : List Char) : Option ℝ :=
  ((ngramOf [s1]).search? s2 none).map
    (fun results => match results with
      | [] => 0
      | r :: _ => r.2)

section NestedAssoc

variable {κ : Type} {β : Type} [DecidableEq κ]

/-- Nested dictionary lookup `d[g][m]` as an `Option`. -/
def alookup2 (gr : List (Gram × List (κ × β))) (g : Gram) (m : κ) : Option β :=
  (alookup gr g).bind (fun b => alookup b m)

end NestedAssoc

/-- The occurrence count stored for member `m` in the `_grams` bucket of
n-gram `g` (zero when the bucket or the entry is missing). -/
def storedCount {α : Type} [DecidableEq α] (gr : List (Gram × Bucket α))
    (g : Gram) (m : α) : ℕ :=
  ((alookup2 gr g m).getD 0)

section InvariantDefs

variable {α : Type} [DecidableEq α]

/-- Well-formedness of an index state: the invariants that hold for every
state reachable by construction and mutation (members form a set; `length`
and `_grams` are dicts keyed consistently with `members`). -/
def WF (s : NGramIndex α) : Prop :=
  s.members.Nodup ∧
  (akeys s.length).Nodup ∧
  (∀ m ∈ akeys s.length, m ∈ s.members) ∧
  (∀ m ∈ s.members, m ∈ akeys s.length) ∧
  (akeys s.grams).Nodup ∧
  (∀ p ∈ s.grams, (akeys p.2).Nodup) ∧
  (∀ p ∈ s.grams, ∀ e ∈ p.2, e.1 ∈ s.members)

instance (s : NGramIndex α) : Decidable (WF s) := by
  unfold WF
  infer_instance

/-- Number of shared n-grams the specification ascribes to member `m` after
the n-gram occurrence list `P` of the query has been processed: the sum,
over the distinct n-grams of `P`, of the minimum of the occurrence count in
`P` and the stored occurrence count for `m`. -/
def specOf (gr : List (Gram × Bucket α)) (P : List Gram) (m : α) : ℕ :=
  ∑ g ∈ P.toFinset, min (P.count g) (storedCount gr g m)

/-- Contents of the `remaining` map after processing the n-gram occurrence
list `P`: for touched n-grams, the stored count minus the occurrences
already matched. -/
def remSpec (gr : List (Gram × Bucket α)) (P : List Gram) (g : Gram) (m : α) :
    Option ℕ :=
  (alookup gr g).bind (fun b =>
    if g ∈ P then (alookup b m).map (fun c => c - P.count g) else none)

/-- The multiset-intersection shared-n-gram count of the claim: over the
distinct n-grams of the padded query, sum the minimum of the query
occurrence count and the count stored for the member in `_grams`. -/
def sharedSpec (s : NGramIndex α) (query : List Char) (m : α) : ℕ :=
  specOf s.grams (s.split query) m

end InvariantDefs

section AssocLemmas

variable {κ : Type} {β : Type} [DecidableEq κ]

@[simp] theorem alookup_nil (k : κ) : alookup ([] : List (κ × β)) k = none := rfl

theorem alookup_cons (k0 : κ) (v0 : β) (rest : List (κ × β)) (k : κ) :
    alookup ((k0, v0) :: rest) k = if k = k0 then some v0 else alookup rest k := rfl

@[simp] theorem akeys_nil : akeys ([] : List (κ × β)) = [] := rfl

@[simp] theorem akeys_cons (k0 : κ) (v0 : β) (rest : List (κ × β)) :
    akeys ((k0, v0) :: rest) = k0 :: akeys rest := rfl

theorem akeys_append (l1 l2 : List (κ × β)) : akeys (l1 ++ l2) = akeys l1 ++ akeys l2 :=
  List.map_append _ _ _

theorem mem_akeys {l : List (κ × β)} {k : κ} : k ∈ akeys l ↔ ∃ v, (k, v) ∈ l := by
  constructor
  · intro h
    obtain ⟨p, hp, he⟩ := List.mem_map.mp h
    exact ⟨p.2, by rwa [show (k, p.2) = p from Prod.ext he.symm rfl]⟩
  · rintro ⟨v, hv⟩
    exact List.mem_map.mpr ⟨(k, v), hv, rfl⟩

theorem alookup_append (l1 l2 : List (κ × β)) (k : κ) :
    alookup (l1 ++ l2) k = ((alookup l1 k).or (alookup l2 k)) := by
  induction l1 with
  | nil => simp
  | cons p rest ih =>
    obtain ⟨k0, v0⟩ := p
    by_cases h : k = k0 <;> simp [alookup_cons, h, ih]

theorem alookup_isSome_iff (l : List (κ × β)) (k : κ) :
    (alookup l k).isSome ↔ k ∈ akeys l := by
  induction l with
  | nil => simp
  | cons p rest ih =>
    obtain ⟨k0, v0⟩ := p
    rw [alookup_cons, akeys_cons]
    by_cases h : k = k0 <;> simp [h, ih]

theorem alookup_eq_none_iff (l : List (κ × β)) (k : κ) :
    alookup l k = none ↔ k ∉ akeys l := by
  rw [← alookup_isSome_iff]
  cases alookup l k <;> simp

theorem alookup_mem (l : List (κ × β)) (k : κ) (v : β) (h : alookup l k = some v) :
    (k, v) ∈ l := by
  induction l with
  | nil => simp [alookup] at h
  | cons p rest ih =>
    obtain ⟨k0, v0⟩ := p
    by_cases hk : k = k0
    · rw [alookup_cons, if_pos hk] at h
      cases h
      exact hk ▸ List.mem_cons_self _ _
    · rw [alookup_cons, if_neg hk] at h
      exact List.mem_cons_of_mem _ (ih h)

theorem mem_alookup (l : List (κ × β)) (k : κ) (v : β)
    (hnd : (akeys l).Nodup) (h : (k, v) ∈ l) : alookup l k = some v := by
  induction l with
  | nil => simp at h
  | cons p rest ih =>
    obtain ⟨k0, v0⟩ := p
    rw [akeys_cons, List.nodup_cons] at hnd
    rcases List.mem_cons.mp h with h1 | h1
    · injection h1 with e1 e2
      subst e1
      subst e2
      rw [alookup_cons, if_pos rfl]
    · have hk : k ≠ k0 := by
        rintro rfl
        exact hnd.1 (mem_akeys.mpr ⟨v, h1⟩)
      rw [alookup_cons, if_neg hk]
      exact ih hnd.2 h1

@[simp] theorem alookup_aset_self (l : List (κ × β)) (k : κ) (v : β) :
    alookup (aset l k v) k = some v := by
  induction l with
  | nil => simp [aset, alookup_cons]
  | cons p rest ih =>
    obtain ⟨k0, v0⟩ := p
    by_cases h : k = k0 <;> simp [aset, h, alookup_cons, ih]

theorem alookup_aset_ne (l : List (κ × β)) (k k' : κ) (v : β) (h : k' ≠ k) :
    alookup (aset l k v) k' = alookup l k' := by
  induction l with
  | nil => simp [aset, alookup_cons, h]
  | cons p rest ih =>
    obtain ⟨k0, v0⟩ := p
    by_cases h0 : k = k0
    · subst h0
      simp [aset, alookup_cons, h]
    · by_cases h1 : k' = k0 <;> simp [aset, h0, alookup_cons, h1, ih]

theorem alookup_asetd_self (l : List (κ × β)) (k : κ) (v : β) :
    alookup (asetd l k v) k = some ((alookup l k).getD v) := by
  unfold asetd
  rcases h : alookup l k with _ | w
  · simp [h, alookup_append, alookup_cons]
  · simp [h]

theorem alookup_asetd_ne (l : List (κ × β)) (k k' : κ) (v : β) (h : k' ≠ k) :
    alookup (asetd l k v) k' = alookup l k' := by
  unfold asetd
  rcases alookup l k with _ | w
  · simp [alookup_append, alookup_cons, h]
  · simp

theorem akeys_aset_mem (l : List (κ × β)) (k k' : κ) (v : β) :
    k' ∈ akeys (aset l k v) ↔ k' ∈ akeys l ∨ k' = k := by
  induction l with
  | nil => simp [aset, eq_comm]
  | cons p rest ih =>
    obtain ⟨k0, v0⟩ := p
    by_cases h : k = k0
    · subst h
      simp [aset]
      tauto
    · simp [aset, h] at ih ⊢
      tauto

theorem akeys_aset_of_mem (l : List (κ × β)) (k : κ) (v : β) (h : k ∈ akeys l) :
    akeys (aset l k v) = akeys l := by
  induction l with
  | nil => simp at h
  | cons p rest ih =>
    obtain ⟨k0, v0⟩ := p
    by_cases h0 : k = k0
    · simp [aset, h0]
    · rw [akeys_cons, List.mem_cons] at h
      rcases h with h | h
      · exact absurd h h0
      · simp [aset, h0, ih h]

theorem aset_of_not_mem (l : List (κ × β)) (k : κ) (v : β) (h : k ∉ akeys l) :
    aset l k v = l ++ [(k, v)] := by
  induction l with
  | nil => simp [aset]
  | cons p rest ih =>
    obtain ⟨k0, v0⟩ := p
    rw [akeys_cons, List.mem_cons] at h
    push_neg at h
    simp [aset, h.1, ih h.2]

theorem akeys_aset_nodup (l : List (κ × β)) (k : κ) (v : β) (h : (akeys l).Nodup) :
    (akeys (aset l k v)).Nodup := by
  by_cases hm : k ∈ akeys l
  · rw [akeys_aset_of_mem l k v hm]
    exact h
  · rw [aset_of_not_mem l k v hm, akeys_append]
    rw [List.nodup_append]
    exact ⟨h, List.nodup_singleton _, by simpa using fun hk => hm hk⟩

theorem akeys_asetd_nodup (l : List (κ × β)) (k : κ) (v : β) (h : (akeys l).Nodup) :
    (akeys (asetd l k v)).Nodup := by
  unfold asetd
  by_cases hs : (alookup l k).isSome
  · rw [if_pos hs]
    exact h
  · rw [if_neg hs]
    have hn : k ∉ akeys l := fun hk => hs ((alookup_isSome_iff l k).mpr hk)
    rw [akeys_append, List.nodup_append]
    exact ⟨h, List.nodup_singleton _, by simpa using fun hk => hn hk⟩

theorem adel_eq_none_iff (l : List (κ × β)) (k : κ) :
    adel l k = none ↔ k ∉ akeys l := by
  induction l with
  | nil => simp [adel]
  | cons p rest ih =>
    obtain ⟨k0, v0⟩ := p
    rw [akeys_cons, List.mem_cons]
    by_cases h : k = k0
    · simp [adel, h]
    · simp only [adel, if_neg h, Option.map_eq_none']
      rw [ih]
      tauto

theorem alookup_adel_ne (l l' : List (κ × β)) (k k' : κ)
    (hd : adel l k = some l') (h : k' ≠ k) : alookup l' k' = alookup l k' := by
  induction l generalizing l' with
  | nil => simp [adel] at hd
  | cons p rest ih =>
    obtain ⟨k0, v0⟩ := p
    by_cases h0 : k = k0
    · rw [adel, if_pos h0] at hd
      cases hd
      subst h0
      rw [alookup_cons, if_neg h]
    · rw [adel, if_neg h0] at hd
      rcases hr : adel rest k with _ | r
      · rw [hr] at hd
        simp at hd
      · rw [hr] at hd
        simp at hd
        subst hd
        by_cases h1 : k' = k0 <;> simp [alookup_cons, h1, ih r hr]

theorem alookup_adel_self (l l' : List (κ × β)) (k : κ)
    (hnd : (akeys l).Nodup) (hd : adel l k = some l') : alookup l' k = none := by
  induction l generalizing l' with
  | nil => simp [adel] at hd
  | cons p rest ih =>
    obtain ⟨k0, v0⟩ := p
    rw [akeys_cons, List.nodup_cons] at hnd
    by_cases h0 : k = k0
    · rw [adel, if_pos h0] at hd
      cases hd
      subst h0
      rw [alookup_eq_none_iff]
      exact hnd.1
    · rw [adel, if_neg h0] at hd
      rcases hr : adel rest k with _ | r
      · rw [hr] at hd
        simp at hd
      · rw [hr] at hd
        simp at hd
        subst hd
        rw [alookup_cons, if_neg h0]
        exact ih r hnd.2 hr

theorem akeys_adel_subset (l l' : List (κ × β)) (k : κ)
    (hd : adel l k = some l') : ∀ k', k' ∈ akeys l' → k' ∈ akeys l := by
  induction l generalizing l' with
  | nil => simp [adel] at hd
  | cons p rest ih =>
    obtain ⟨k0, v0⟩ := p
    by_cases h0 : k = k0
    · rw [adel, if_pos h0] at hd
      cases hd
      intro k' hk'
      rw [akeys_cons]
      exact List.mem_cons_of_mem _ hk'
    · rw [adel, if_neg h0] at hd
      rcases hr : adel rest k with _ | r
      · rw [hr] at hd
        simp at hd
      · rw [hr] at hd
        simp at hd
        subst hd
        intro k' hk'
        rw [akeys_cons, List.mem_cons] at hk' ⊢
        rcases hk' with h1 | h1
        · exact Or.inl h1
        · exact Or.inr (ih r hr k' h1)

theorem akeys_adel_nodup (l l' : List (κ × β)) (k : κ)
    (hnd : (akeys l).Nodup) (hd : adel l k = some l') : (akeys l').Nodup := by
  induction l generalizing l' with
  | nil => simp [adel] at hd
  | cons p rest ih =>
    obtain ⟨k0, v0⟩ := p
    rw [akeys_cons, List.nodup_cons] at hnd
    by_cases h0 : k = k0
    · rw [adel, if_pos h0] at hd
      cases hd
      exact hnd.2
    · rw [adel, if_neg h0] at hd
      rcases hr : adel rest k with _ | r
      · rw [hr] at hd
        simp at hd
      · rw [hr] at hd
        simp at hd
        subst hd
        rw [akeys_cons, List.nodup_cons]
        exact ⟨fun hmem => hnd.1 (akeys_adel_subset rest r k hr k0 hmem), ih r hnd.2 hr⟩

theorem adel_append_fresh (l : List (κ × β)) (k : κ) (v : β) (h : k ∉ akeys l) :
    adel (l ++ [(k, v)]) k = some l := by
  induction l with
  | nil => simp [adel]
  | cons p rest ih =>
    obtain ⟨k0, v0⟩ := p
    rw [akeys_cons, List.mem_cons] at h
    push_neg at h
    simp [adel, h.1, ih h.2]

/-- An association list with no duplicate keys whose lookup function is the
single-point map `k₀ ↦ v₀` is the one-entry list. -/
theorem alookup_char_single (l : List (κ × β)) (k0 : κ) (v0 : β)
    (hnd : (akeys l).Nodup)
    (h : ∀ k, alookup l k = if k = k0 then some v0 else none) : l = [(k0, v0)] := by
  cases l with
  | nil =>
    have := h k0
    simp at this
  | cons p rest =>
    obtain ⟨k1, v1⟩ := p
    rw [akeys_cons, List.nodup_cons] at hnd
    have h1 := h k1
    rw [alookup_cons, if_pos rfl] at h1
    by_cases he : k1 = k0
    · subst he
      rw [if_pos rfl] at h1
      cases h1
      have hrest : rest = [] := by
        cases hr : rest with
        | nil => rfl
        | cons q rr =>
          obtain ⟨k2, v2⟩ := q
          exfalso
          have hk2 : k2 ≠ k1 := by
            rintro rfl
            exact hnd.1 (by rw [hr, akeys_cons]; exact List.mem_cons_self _ _)
          have h2 := h k2
          rw [alookup_cons, if_neg hk2, hr, alookup_cons, if_pos rfl, if_neg hk2] at h2
          exact Option.noConfusion h2
      rw [hrest]
    · rw [if_neg he] at h1
      exact Option.noConfusion h1

end AssocLemmas

section MoreAssoc

variable {κ : Type} {β : Type} [DecidableEq κ]

theorem mem_aset (l : List (κ × β)) (k : κ) (v : β) (p : κ × β) (h : p ∈ aset l k v) :
    p ∈ l ∨ p = (k, v) := by
  induction l with
  | nil => simpa [aset] using h
  | cons q rest ih =>
    obtain ⟨k0, v0⟩ := q
    by_cases h0 : k = k0
    · rw [aset, if_pos h0] at h
      rcases List.mem_cons.mp h with h1 | h1
      · exact Or.inr h1
      · exact Or.inl (List.mem_cons_of_mem _ h1)
    · rw [aset, if_neg h0] at h
      rcases List.mem_cons.mp h with h1 | h1
      · exact Or.inl (h1 ▸ List.mem_cons_self _ _)
      · rcases ih h1 with h2 | h2
        · exact Or.inl (List.mem_cons_of_mem _ h2)
        · exact Or.inr h2

theorem mem_asetd (l : List (κ × β)) (k : κ) (v : β) (p : κ × β) (h : p ∈ asetd l k v) :
    p ∈ l ∨ p = (k, v) := by
  unfold asetd at h
  split at h
  · exact Or.inl h
  · rcases List.mem_append.mp h with h1 | h1
    · exact Or.inl h1
    · exact Or.inr (List.mem_singleton.mp h1)

theorem alookup_getD_nil (gr : List (Gram × List (κ × β))) (g : Gram) (m : κ) :
    alookup ((alookup gr g).getD []) m = alookup2 gr g m := by
  unfold alookup2
  rcases alookup gr g with _ | b <;> simp

end MoreAssoc

section AddLemmas

variable {α : Type} [DecidableEq α]

theorem addGramOne_self (gr : List (Gram × Bucket α)) (g : Gram) (it : α) :
    alookup2 (NGramIndex.addGramOne gr g it) g it =
      some ((alookup2 gr g it).getD 0 + 1) := by
  unfold NGramIndex.addGramOne alookup2
  simp only [alookup_aset_self, Option.some_bind, alookup_asetd_self, Option.getD_some]
  rw [alookup_getD_nil]
  rfl

theorem addGramOne_other_gram (gr : List (Gram × Bucket α)) (g g' : Gram) (it : α)
    (h : g' ≠ g) :
    alookup (NGramIndex.addGramOne gr g it) g' = alookup gr g' := by
  unfold NGramIndex.addGramOne
  rw [alookup_aset_ne _ _ _ _ h, alookup_asetd_ne _ _ _ _ h]

theorem addGramOne_other_member (gr : List (Gram × Bucket α)) (g : Gram) (it m : α)
    (h : m ≠ it) :
    alookup2 (NGramIndex.addGramOne gr g it) g m = alookup2 gr g m := by
  unfold NGramIndex.addGramOne alookup2
  simp only [alookup_aset_self, Option.some_bind, alookup_asetd_self, Option.getD_some]
  rw [alookup_aset_ne _ _ _ _ h, alookup_asetd_ne _ _ _ _ h, alookup_getD_nil]
  rfl

theorem addGramOne_isSome (gr : List (Gram × Bucket α)) (g g' : Gram) (it : α) :
    (alookup (NGramIndex.addGramOne gr g it) g').isSome
      ↔ ((alookup gr g').isSome ∨ g' = g) := by
  by_cases h : g' = g
  · subst h
    unfold NGramIndex.addGramOne
    simp
  · rw [addGramOne_other_gram gr g g' it h]
    simp [h]

theorem addGramOne_nodup (gr : List (Gram × Bucket α)) (g : Gram) (it : α)
    (h : (akeys gr).Nodup) : (akeys (NGramIndex.addGramOne gr g it)).Nodup := by
  unfold NGramIndex.addGramOne
  exact akeys_aset_nodup _ _ _ (akeys_asetd_nodup _ _ _ h)

theorem addGramOne_buckets_nodup (gr : List (Gram × Bucket α)) (g : Gram) (it : α)
    (h : ∀ p ∈ gr, (akeys p.2).Nodup) :
    ∀ p ∈ NGramIndex.addGramOne gr g it, (akeys p.2).Nodup := by
  intro p hp
  have hd : ∀ p ∈ asetd gr g ([] : Bucket α), (akeys p.2).Nodup := by
    intro q hq
    rcases mem_asetd _ _ _ _ hq with h1 | h1
    · exact h q h1
    · rw [h1]
      exact List.nodup_nil
  unfold NGramIndex.addGramOne at hp
  rcases mem_aset _ _ _ _ hp with h1 | h1
  · exact hd p h1
  · rw [h1]
    refine akeys_aset_nodup _ _ _ (akeys_asetd_nodup _ _ _ ?_)
    rcases hb : alookup (asetd gr g ([] : Bucket α)) g with _ | b
    · simp
    · simpa [hb] using hd (g, b) (alookup_mem _ _ _ hb)

theorem addGramOne_bucket_members (gr : List (Gram × Bucket α)) (g : Gram) (it : α)
    (S : α → Prop) (hS : ∀ p ∈ gr, ∀ e ∈ p.2, S e.1) (hit : S it) :
    ∀ p ∈ NGramIndex.addGramOne gr g it, ∀ e ∈ p.2, S e.1 := by
  intro p hp e he
  have hd : ∀ p ∈ asetd gr g ([] : Bucket α), ∀ e ∈ p.2, S e.1 := by
    intro q hq e' he'
    rcases mem_asetd _ _ _ _ hq with h1 | h1
    · exact hS q h1 e' he'
    · rw [h1] at he'
      simp at he'
  unfold NGramIndex.addGramOne at hp
  rcases mem_aset _ _ _ _ hp with h1 | h1
  · exact hd p h1 e he
  · rw [h1] at he
    rcases mem_aset _ _ _ _ he with h2 | h2
    · rcases mem_asetd _ _ _ _ h2 with h3 | h3
      · rcases hb : alookup (asetd gr g ([] : Bucket α)) g with _ | b
        · rw [hb] at h3
          simp at h3
        · rw [hb] at h3
          exact hd (g, b) (alookup_mem _ _ _ hb) e h3
      · rw [h3]
        exact hit
    · rw [h2]
      exact hit

/-- Count accumulated for the added item over the n-gram loop of `add`:
each processed occurrence of `g` adds one. -/
theorem addFold_self (L : List Gram) (gr : List (Gram × Bucket α)) (it : α) (g : Gram) :
    alookup2 (L.foldl (fun acc g' => NGramIndex.addGramOne acc g' it) gr) g it =
      if g ∈ L then some ((alookup2 gr g it).getD 0 + L.count g)
      else alookup2 gr g it := by
  induction L generalizing gr with
  | nil => simp
  | cons g0 rest ih =>
    rw [List.foldl_cons, ih]
    by_cases hg : g = g0
    · subst hg
      by_cases hr : g ∈ rest
      · simp only [hr, if_true, List.mem_cons_self, addGramOne_self, Option.getD_some,
          List.count_cons_self]
        refine congrArg some ?_
        omega
      · simp only [hr, if_false, List.mem_cons_self, if_true, addGramOne_self,
          List.count_cons_self, List.count_eq_zero_of_not_mem hr]
    · have hb : alookup2 (NGramIndex.addGramOne gr g0 it) g it = alookup2 gr g it := by
        unfold alookup2
        rw [addGramOne_other_gram _ _ _ _ hg]
      simp [hb, hg, List.count_cons, List.mem_cons]

theorem addFold_other_member (L : List Gram) (gr : List (Gram × Bucket α)) (it m : α)
    (g : Gram) (h : m ≠ it) :
    alookup2 (L.foldl (fun acc g' => NGramIndex.addGramOne acc g' it) gr) g m =
      alookup2 gr g m := by
  induction L generalizing gr with
  | nil => rfl
  | cons g0 rest ih =>
    rw [List.foldl_cons, ih]
    by_cases hg : g = g0
    · subst hg
      exact addGramOne_other_member gr g it m h
    · unfold alookup2
      rw [addGramOne_other_gram _ _ _ _ hg]

theorem addFold_isSome (L : List Gram) (gr : List (Gram × Bucket α)) (it : α) (g : Gram) :
    (alookup (L.foldl (fun acc g' => NGramIndex.addGramOne acc g' it) gr) g).isSome
      ↔ ((alookup gr g).isSome ∨ g ∈ L) := by
  induction L generalizing gr with
  | nil => simp
  | cons g0 rest ih =>
    rw [List.foldl_cons, ih, addGramOne_isSome, List.mem_cons]
    tauto

theorem addFold_nodup (L : List Gram) (gr : List (Gram × Bucket α)) (it : α)
    (h : (akeys gr).Nodup) :
    (akeys (L.foldl (fun acc g' => NGramIndex.addGramOne acc g' it) gr)).Nodup := by
  induction L generalizing gr with
  | nil => exact h
  | cons g0 rest ih => exact ih _ (addGramOne_nodup gr g0 it h)

theorem addFold_buckets_nodup (L : List Gram) (gr : List (Gram × Bucket α)) (it : α)
    (h : ∀ p ∈ gr, (akeys p.2).Nodup) :
    ∀ p ∈ L.foldl (fun acc g' => NGramIndex.addGramOne acc g' it) gr, (akeys p.2).Nodup := by
  induction L generalizing gr with
  | nil => exact h
  | cons g0 rest ih => exact ih _ (addGramOne_buckets_nodup gr g0 it h)

theorem addFold_bucket_members (L : List Gram) (gr : List (Gram × Bucket α)) (it : α)
    (S : α → Prop) (hS : ∀ p ∈ gr, ∀ e ∈ p.2, S e.1) (hit : S it) :
    ∀ p ∈ L.foldl (fun acc g' => NGramIndex.addGramOne acc g' it) gr,
      ∀ e ∈ p.2, S e.1 := by
  induction L generalizing gr with
  | nil => exact hS
  | cons g0 rest ih => exact ih _ (addGramOne_bucket_members gr g0 it S hS hit)

end AddLemmas

section StateLemmas

variable {α : Type} [DecidableEq α]

namespace NGramIndex

theorem add_members (s : NGramIndex α) (x : α) (h : x ∉ s.members) :
    (s.add x).members = s.members ++ [x] := by
  unfold add
  rw [if_neg h]

theorem add_length (s : NGramIndex α) (x : α) (h : x ∉ s.members) :
    (s.add x).length = aset s.length x (s.pad (s.key x)).length := by
  unfold add
  rw [if_neg h]

theorem add_grams (s : NGramIndex α) (x : α) (h : x ∉ s.members) :
    (s.add x).grams =
      (splitNoPad s.N (s.pad (s.key x))).foldl
        (fun gr g => addGramOne gr g x) s.grams := by
  unfold add
  rw [if_neg h]

theorem add_N (s : NGramIndex α) (x : α) : (s.add x).N = s.N := by
  unfold add
  split <;> rfl

theorem add_padding (s : NGramIndex α) (x : α) : (s.add x).padding = s.padding := by
  unfold add
  split <;> rfl

theorem add_key (s : NGramIndex α) (x : α) : (s.add x).key = s.key := by
  unfold add
  split <;> rfl

theorem add_threshold (s : NGramIndex α) (x : α) : (s.add x).threshold = s.threshold := by
  unfold add
  split <;> rfl

theorem add_warp (s : NGramIndex α) (x : α) : (s.add x).warp = s.warp := by
  unfold add
  split <;> rfl

theorem add_pad (s : NGramIndex α) (x : α) (y : List Char) :
    (s.add x).pad y = s.pad y := by
  unfold pad
  rw [add_padding]

theorem add_split (s : NGramIndex α) (x : α) (y : List Char) :
    (s.add x).split y = s.split y := by
  unfold split
  rw [add_N, add_pad]

theorem add_splititem (s : NGramIndex α) (x : α) (m : α) :
    (s.add x).splititem m = s.splititem m := by
  unfold splititem
  rw [add_key, add_split]

end NGramIndex

theorem WF_add (s : NGramIndex α) (x : α) (h : WF s) : WF (s.add x) := by
  by_cases hx : x ∈ s.members
  · unfold NGramIndex.add
    rw [if_pos hx]
    exact h
  · obtain ⟨h1, h2, h3, h4, h5, h6, h7⟩ := h
    have hxl : x ∉ akeys s.length := fun hm => hx (h3 x hm)
    refine ⟨?_, ?_, ?_, ?_, ?_, ?_, ?_⟩
    · rw [NGramIndex.add_members s x hx, List.nodup_append]
      exact ⟨h1, List.nodup_singleton _, by simpa using fun hk => hx hk⟩
    · rw [NGramIndex.add_length s x hx]
      exact akeys_aset_nodup _ _ _ h2
    · rw [NGramIndex.add_length s x hx, NGramIndex.add_members s x hx]
      intro m hm
      rcases (akeys_aset_mem _ _ _ _).mp hm with h8 | h8
      · exact List.mem_append_left _ (h3 m h8)
      · subst h8
        exact List.mem_append_right _ (List.mem_singleton.mpr rfl)
    · rw [NGramIndex.add_length s x hx, NGramIndex.add_members s x hx]
      intro m hm
      rcases List.mem_append.mp hm with h8 | h8
      · exact (akeys_aset_mem _ _ _ _).mpr (Or.inl (h4 m h8))
      · exact (akeys_aset_mem _ _ _ _).mpr (Or.inr (List.mem_singleton.mp h8))
    · rw [NGramIndex.add_grams s x hx]
      exact addFold_nodup _ _ _ h5
    · rw [NGramIndex.add_grams s x hx]
      exact addFold_buckets_nodup _ _ _ h6
    · rw [NGramIndex.add_grams s x hx, NGramIndex.add_members s x hx]
      exact addFold_bucket_members _ _ _ (fun m => m ∈ s.members ++ [x])
        (fun p hp e he => List.mem_append_left _ (h7 p hp e he))
        (List.mem_append_right _ (List.mem_singleton.mpr rfl))

/-- The deletion loop of `remove` succeeds and removes exactly the item's
entries when the n-gram list has no duplicates and every listed n-gram's
bucket holds an entry for the item. -/
theorem delGramsLoop_char (it : α) (L : List Gram) (gr : List (Gram × Bucket α))
    (hnd : L.Nodup)
    (hbnd : ∀ p ∈ gr, (akeys p.2).Nodup)
    (hpres : ∀ g ∈ L, (alookup2 gr g it).isSome) :
    (NGramIndex.delGramsLoop it L gr).1 = false ∧
    (∀ g m, m ≠ it →
      alookup2 (NGramIndex.delGramsLoop it L gr).2 g m = alookup2 gr g m) ∧
    (∀ g ∈ L, alookup2 (NGramIndex.delGramsLoop it L gr).2 g it = none) ∧
    (∀ g, g ∉ L →
      alookup2 (NGramIndex.delGramsLoop it L gr).2 g it = alookup2 gr g it) ∧
    (∀ g, (alookup (NGramIndex.delGramsLoop it L gr).2 g).isSome
      = (alookup gr g).isSome) ∧
    (∀ p ∈ (NGramIndex.delGramsLoop it L gr).2, (akeys p.2).Nodup) := by
  induction L generalizing gr with
  | nil =>
    exact ⟨rfl, fun _ _ _ => rfl, by simp, fun _ _ => rfl, fun _ => rfl, hbnd⟩
  | cons g0 rest ih =>
    rw [List.nodup_cons] at hnd
    have hp0 := hpres g0 (List.mem_cons_self _ _)
    rcases hb : alookup gr g0 with _ | b
    · rw [alookup2, hb] at hp0
      simp at hp0
    · have hitb : it ∈ akeys b := by
        rw [alookup2, hb] at hp0
        simp at hp0
        exact (alookup_isSome_iff b it).mp hp0
      rcases hdel : adel b it with _ | b'
      · exact absurd ((adel_eq_none_iff b it).mp hdel) (fun hc => hc hitb)
      · have hcons : NGramIndex.delGramsLoop it (g0 :: rest) gr =
            match alookup gr g0 with
            | none => (true, gr)
            | some b =>
              match adel b it with
              | none => (true, gr)
              | some b' => NGramIndex.delGramsLoop it rest (aset gr g0 b') := rfl
        have hstep : NGramIndex.delGramsLoop it (g0 :: rest) gr
            = NGramIndex.delGramsLoop it rest (aset gr g0 b') := by
          simp only [hcons, hb, hdel]
        set gr1 := aset gr g0 b' with hgr1
        have hbnd1 : ∀ p ∈ gr1, (akeys p.2).Nodup := by
          intro p hp
          rcases mem_aset _ _ _ _ hp with h1 | h1
          · exact hbnd p h1
          · rw [h1]
            exact akeys_adel_nodup b b' it (hbnd (g0, b) (alookup_mem _ _ _ hb)) hdel
        have hl1 : ∀ g m, m ≠ it → alookup2 gr1 g m = alookup2 gr g m := by
          intro g m hm
          by_cases hg : g = g0
          · subst hg
            rw [alookup2, alookup2, hb, hgr1, alookup_aset_self]
            simp only [Option.some_bind]
            exact alookup_adel_ne b b' it m hdel hm
          · rw [alookup2, alookup2, hgr1, alookup_aset_ne _ _ _ _ hg]
        have hl2 : alookup2 gr1 g0 it = none := by
          rw [alookup2, hgr1, alookup_aset_self]
          simp only [Option.some_bind]
          exact alookup_adel_self b b' it (hbnd (g0, b) (alookup_mem _ _ _ hb)) hdel
        have hl3 : ∀ g, g ≠ g0 → alookup2 gr1 g it = alookup2 gr g it := by
          intro g hg
          rw [alookup2, alookup2, hgr1, alookup_aset_ne _ _ _ _ hg]
        have hl4 : ∀ g, (alookup gr1 g).isSome = (alookup gr g).isSome := by
          intro g
          by_cases hg : g = g0
          · subst hg
            rw [hgr1, alookup_aset_self, hb]
            rfl
          · rw [hgr1, alookup_aset_ne _ _ _ _ hg]
        have hpres1 : ∀ g ∈ rest, (alookup2 gr1 g it).isSome := by
          intro g hg
          have hgne : g ≠ g0 := fun he => hnd.1 (he ▸ hg)
          rw [hl3 g hgne]
          exact hpres g (List.mem_cons_of_mem _ hg)
        obtain ⟨ih1, ih2, ih3, ih4, ih5, ih6⟩ := ih gr1 hnd.2 hbnd1 hpres1
        rw [hstep]
        refine ⟨ih1, ?_, ?_, ?_, ?_, ih6⟩
        · intro g m hm
          rw [ih2 g m hm, hl1 g m hm]
        · intro g hg
          rcases List.mem_cons.mp hg with h1 | h1
          · subst h1
            rw [ih4 g (fun hc => hnd.1 hc), hl2]
          · exact ih3 g h1
        · intro g hg
          rw [List.mem_cons] at hg
          push_neg at hg
          rw [ih4 g hg.2, hl3 g hg.1]
        · intro g
          rw [ih5 g, hl4 g]

theorem splititem_mk (M : List α) (Lg : List (α × ℕ)) (Gr : List (Gram × Bucket α))
    (t w : ℚ) (k : α → List Char) (n : ℕ) (p : List Char) (x : α) :
    (NGramIndex.mk M Lg Gr t w k n p).splititem x
      = NGramIndex.splitNoPad n (p ++ k x ++ p) := rfl

/-- Adding a fresh item and then removing it raises no error, restores
`members` and `length` exactly, and restores every bucket's entries; the
buckets created for the item's n-grams survive as empty dictionaries
(`remove` deletes entries, never buckets).  The item's padded key must have
no repeated n-gram, otherwise the deletion loop raises (see the `remove`
analysis). -/
theorem add_remove_reversal (s : NGramIndex α) (x : α) (hWF : WF s) (hx : x ∉ s.members)
    (hnd : (s.splititem x).Nodup) :
    ((s.add x).removeRun x).1 = false ∧
    ((s.add x).removeRun x).2.members = s.members ∧
    ((s.add x).removeRun x).2.length = s.length ∧
    (∀ g m, alookup2 ((s.add x).removeRun x).2.grams g m = alookup2 s.grams g m) ∧
    (∀ g, (alookup ((s.add x).removeRun x).2.grams g).isSome
      ↔ ((alookup s.grams g).isSome ∨ g ∈ s.splititem x)) := by
  obtain ⟨w1, w2, w3, w4, w5, w6, w7⟩ := hWF
  have hxl : x ∉ akeys s.length := fun hm => hx (w3 x hm)
  have hmem' : x ∈ (s.add x).members := by
    rw [NGramIndex.add_members s x hx]
    exact List.mem_append_right _ (List.mem_singleton.mpr rfl)
  have herase : ((s.add x).members).erase x = s.members := by
    rw [NGramIndex.add_members s x hx, List.erase_append]
    simp [List.erase_of_not_mem hx, hx]
  have hlen : (s.add x).length = s.length ++ [(x, (s.pad (s.key x)).length)] := by
    rw [NGramIndex.add_length s x hx, aset_of_not_mem _ _ _ hxl]
  have hadel : adel (s.add x).length x = some s.length := by
    rw [hlen]
    exact adel_append_fresh _ _ _ hxl
  have hLdef : s.splititem x = NGramIndex.splitNoPad s.N (s.pad (s.key x)) := rfl
  have hgr : (s.add x).grams =
      (s.splititem x).foldl (fun gr g => NGramIndex.addGramOne gr g x) s.grams := by
    rw [NGramIndex.add_grams s x hx, hLdef]
  have hxg : ∀ g, alookup2 s.grams g x = none := by
    intro g
    rcases h : alookup2 s.grams g x with _ | c
    · rfl
    · exfalso
      unfold alookup2 at h
      rcases hb : alookup s.grams g with _ | b
      · rw [hb] at h
        simp at h
      · rw [hb] at h
        simp at h
        exact hx (w7 (g, b) (alookup_mem _ _ _ hb) (x, c) (alookup_mem _ _ _ h))
  have hbnd' : ∀ p ∈ (s.add x).grams, (akeys p.2).Nodup := by
    rw [hgr]
    exact addFold_buckets_nodup _ _ _ w6
  have hpres' : ∀ g ∈ s.splititem x, (alookup2 (s.add x).grams g x).isSome := by
    intro g hg
    rw [hgr, addFold_self, if_pos hg]
    rfl
  obtain ⟨d1, d2, d3, d4, d5, d6⟩ :=
    delGramsLoop_char x (s.splititem x) (s.add x).grams hnd hbnd' hpres'
  have hrr : (s.add x).removeRun x =
      ((NGramIndex.delGramsLoop x (s.splititem x) (s.add x).grams).1,
        { s.add x with
          members := s.members
          length := s.length
          grams := (NGramIndex.delGramsLoop x (s.splititem x) (s.add x).grams).2 }) := by
    unfold NGramIndex.removeRun
    rw [if_pos hmem']
    simp only [hadel, herase]
    rw [splititem_mk, NGramIndex.add_N, NGramIndex.add_padding, NGramIndex.add_key]
    rfl
  rw [hrr]
  refine ⟨d1, rfl, rfl, ?_, ?_⟩
  · intro g m
    by_cases hm : m = x
    · subst hm
      by_cases hg : g ∈ s.splititem m
      · rw [d3 g hg, hxg g]
      · rw [d4 g hg, hgr, addFold_self, if_neg hg]
    · rw [d2 g m hm, hgr, addFold_other_member _ _ _ _ _ hm]
  · intro g
    rw [d5 g, hgr, addFold_isSome]

end StateLemmas

section SharedCount

variable {α : Type} [DecidableEq α]

theorem isnEntry_eq (g : Gram) (st : NGramIndex.ISNState α) (mc : α × ℕ) :
    NGramIndex.isnEntry g st mc =
      (if 0 < (alookup2 st.remaining g mc.1).getD mc.2 then
        NGramIndex.ISNState.mk
          (aset (asetd st.shared mc.1 0) mc.1 ((alookup st.shared mc.1).getD 0 + 1))
          (aset (aset (asetd st.remaining g []) g
              (asetd ((alookup st.remaining g).getD []) mc.1 mc.2)) g
            (aset (asetd ((alookup st.remaining g).getD []) mc.1 mc.2) mc.1
              ((alookup2 st.remaining g mc.1).getD mc.2 - 1)))
      else
        NGramIndex.ISNState.mk st.shared
          (aset (asetd st.remaining g []) g
            (asetd ((alookup st.remaining g).getD []) mc.1 mc.2))) := by
  unfold NGramIndex.isnEntry
  simp only [alookup_asetd_self, Option.getD_some, alookup_getD_nil]

theorem isnEntry_rem_other_gram (g g' : Gram) (st : NGramIndex.ISNState α)
    (mc : α × ℕ) (h : g' ≠ g) :
    alookup (NGramIndex.isnEntry g st mc).remaining g' = alookup st.remaining g' := by
  rw [isnEntry_eq]
  split <;>
    simp only [alookup_aset_ne _ _ _ _ h, alookup_asetd_ne _ _ _ _ h]

theorem isnEntry_rem_other_member (g : Gram) (st : NGramIndex.ISNState α)
    (mc : α × ℕ) (m : α) (h : m ≠ mc.1) :
    alookup2 (NGramIndex.isnEntry g st mc).remaining g m
      = alookup2 st.remaining g m := by
  rw [isnEntry_eq]
  split <;>
    simp only [alookup2, alookup_aset_self, Option.some_bind,
      alookup_aset_ne _ _ _ _ h, alookup_asetd_ne _ _ _ _ h, alookup_getD_nil]

theorem isnEntry_rem_self (g : Gram) (st : NGramIndex.ISNState α) (mc : α × ℕ) :
    alookup2 (NGramIndex.isnEntry g st mc).remaining g mc.1
      = some ((alookup2 st.remaining g mc.1).getD mc.2 - 1) := by
  rw [isnEntry_eq]
  by_cases hr : 0 < (alookup2 st.remaining g mc.1).getD mc.2
  · rw [if_pos hr]
    simp only [alookup2, alookup_aset_self, Option.some_bind]
  · rw [if_neg hr]
    simp only [alookup2, alookup_aset_self, Option.some_bind, alookup_asetd_self,
      alookup_getD_nil]
    refine congrArg some ?_
    simp only [alookup2] at hr
    omega

theorem isnEntry_shared_other (g : Gram) (st : NGramIndex.ISNState α)
    (mc : α × ℕ) (m : α) (h : m ≠ mc.1) :
    alookup (NGramIndex.isnEntry g st mc).shared m = alookup st.shared m := by
  rw [isnEntry_eq]
  split
  · simp only [alookup_aset_ne _ _ _ _ h, alookup_asetd_ne _ _ _ _ h]
  · rfl

theorem isnEntry_shared_self (g : Gram) (st : NGramIndex.ISNState α) (mc : α × ℕ) :
    alookup (NGramIndex.isnEntry g st mc).shared mc.1
      = if 0 < (alookup2 st.remaining g mc.1).getD mc.2
        then some ((alookup st.shared mc.1).getD 0 + 1)
        else alookup st.shared mc.1 := by
  rw [isnEntry_eq]
  by_cases hr : 0 < (alookup2 st.remaining g mc.1).getD mc.2
  · rw [if_pos hr, if_pos hr]
    simp only [alookup_aset_self]
  · rw [if_neg hr, if_neg hr]

theorem isnEntry_shared_nodup (g : Gram) (st : NGramIndex.ISNState α) (mc : α × ℕ)
    (h : (akeys st.shared).Nodup) :
    (akeys (NGramIndex.isnEntry g st mc).shared).Nodup := by
  rw [isnEntry_eq]
  split
  · exact akeys_aset_nodup _ _ _ (akeys_asetd_nodup _ _ _ h)
  · exact h

/-- Effect of the inner loop of `items_sharing_ngrams` over a whole bucket:
each listed member is processed exactly once (buckets have no duplicate
keys), other n-grams and unlisted members are untouched. -/
theorem isn_bucket_fold (g : Gram) (b1 : Bucket α) (hnd : (akeys b1).Nodup)
    (st : NGramIndex.ISNState α) :
    (∀ g', g' ≠ g → alookup (b1.foldl (NGramIndex.isnEntry g) st).remaining g'
        = alookup st.remaining g') ∧
    (∀ m, m ∉ akeys b1 →
      alookup2 (b1.foldl (NGramIndex.isnEntry g) st).remaining g m
          = alookup2 st.remaining g m ∧
      alookup (b1.foldl (NGramIndex.isnEntry g) st).shared m = alookup st.shared m) ∧
    (∀ m c, (m, c) ∈ b1 →
      alookup2 (b1.foldl (NGramIndex.isnEntry g) st).remaining g m
          = some ((alookup2 st.remaining g m).getD c - 1) ∧
      alookup (b1.foldl (NGramIndex.isnEntry g) st).shared m
          = (if 0 < (alookup2 st.remaining g m).getD c
             then some ((alookup st.shared m).getD 0 + 1) else alookup st.shared m)) ∧
    ((akeys st.shared).Nodup → (akeys (b1.foldl (NGramIndex.isnEntry g) st).shared).Nodup) := by
  induction b1 generalizing st with
  | nil =>
    exact ⟨fun _ _ => rfl, fun _ _ => ⟨rfl, rfl⟩, by simp, fun h => h⟩
  | cons mc rest ih =>
    obtain ⟨m0, c0⟩ := mc
    rw [akeys_cons, List.nodup_cons] at hnd
    obtain ⟨ih1, ih2, ih3, ih4⟩ := ih hnd.2 (NGramIndex.isnEntry g st (m0, c0))
    rw [List.foldl_cons]
    refine ⟨?_, ?_, ?_, ?_⟩
    · intro g' hg'
      rw [ih1 g' hg', isnEntry_rem_other_gram g g' st (m0, c0) hg']
    · intro m hm
      rw [akeys_cons, List.mem_cons] at hm
      push_neg at hm
      obtain ⟨r1, r2⟩ := ih2 m hm.2
      rw [r1, r2, isnEntry_rem_other_member g st (m0, c0) m hm.1,
        isnEntry_shared_other g st (m0, c0) m hm.1]
      exact ⟨rfl, rfl⟩
    · intro m c hmc
      rcases List.mem_cons.mp hmc with h1 | h1
      · injection h1 with e1 e2
        subst e1
        subst e2
        obtain ⟨r1, r2⟩ := ih2 m hnd.1
        rw [r1, r2, isnEntry_rem_self g st (m, c), isnEntry_shared_self g st (m, c)]
        exact ⟨rfl, rfl⟩
      · have hm : m ≠ m0 := by
          rintro rfl
          exact hnd.1 (mem_akeys.mpr ⟨c, h1⟩)
        obtain ⟨r1, r2⟩ := ih3 m c h1
        rw [r1, r2, isnEntry_rem_other_member g st (m0, c0) m hm,
          isnEntry_shared_other g st (m0, c0) m hm]
        exact ⟨rfl, rfl⟩
    · intro h
      exact ih4 (isnEntry_shared_nodup g st (m0, c0) h)

theorem specOf_split (gr : List (Gram × Bucket α)) (P : List Gram) (g0 : Gram) (m : α) :
    specOf gr P m = min (P.count g0) (storedCount gr g0 m)
      + ∑ g ∈ P.toFinset.erase g0, min (P.count g) (storedCount gr g m) := by
  unfold specOf
  by_cases h : g0 ∈ P.toFinset
  · exact (Finset.add_sum_erase _ _ h).symm
  · rw [Finset.erase_eq_of_not_mem h,
      List.count_eq_zero_of_not_mem (fun hc => h (List.mem_toFinset.mpr hc))]
    simp

theorem specOf_append (gr : List (Gram × Bucket α)) (P : List Gram) (g0 : Gram) (m : α) :
    specOf gr (P ++ [g0]) m = min (P.count g0 + 1) (storedCount gr g0 m)
      + ∑ g ∈ P.toFinset.erase g0, min (P.count g) (storedCount gr g m) := by
  unfold specOf
  have htf : (P ++ [g0]).toFinset = insert g0 P.toFinset := by
    simp [List.toFinset_append, Finset.union_comm, Finset.insert_eq]
  rw [htf, ← Finset.add_sum_erase _ _ (Finset.mem_insert_self g0 _),
    Finset.erase_insert_eq_erase]
  have hc0 : (P ++ [g0]).count g0 = P.count g0 + 1 := by
    rw [List.count_append]
    simp
  rw [hc0]
  refine congrArg (_ + ·) (Finset.sum_congr rfl ?_)
  intro g hg
  have hne : g ≠ g0 := Finset.ne_of_mem_erase hg
  have hz : List.count g [g0] = 0 := by
    rw [List.count_eq_zero]
    simp [hne]
  rw [List.count_append, hz, Nat.add_zero]

theorem remSpec_append_ne (gr : List (Gram × Bucket α)) (P : List Gram)
    (g0 g : Gram) (m : α) (h : g ≠ g0) :
    remSpec gr (P ++ [g0]) g m = remSpec gr P g m := by
  unfold remSpec
  rcases hb : alookup gr g with _ | b
  · rfl
  · simp only [Option.some_bind]
    by_cases hp : g ∈ P
    · have hz : List.count g [g0] = 0 := by
        rw [List.count_eq_zero]
        simp [h]
      rw [if_pos (List.mem_append_left _ hp), if_pos hp,
        List.count_append, hz, Nat.add_zero]
    · rw [if_neg (by simp [List.mem_append, hp, h]), if_neg hp]

theorem isnGram_eq_none (gr : List (Gram × Bucket α)) (st : NGramIndex.ISNState α)
    (g0 : Gram) (hb : alookup gr g0 = none) : NGramIndex.isnGram gr st g0 = st := by
  unfold NGramIndex.isnGram
  rw [hb]

theorem isnGram_eq_some (gr : List (Gram × Bucket α)) (st : NGramIndex.ISNState α)
    (g0 : Gram) (b : Bucket α) (hb : alookup gr g0 = some b) :
    NGramIndex.isnGram gr st g0 = b.foldl (NGramIndex.isnEntry g0) st := by
  unfold NGramIndex.isnGram
  rw [hb]

/-- One outer-loop step of `items_sharing_ngrams` preserves the invariant:
`shared` holds the multiset-intersection counts of the processed prefix and
`remaining` holds the not-yet-matched allowances. -/
theorem isnGram_step (gr : List (Gram × Bucket α)) (hbnd : ∀ p ∈ gr, (akeys p.2).Nodup)
    (P : List Gram) (g0 : Gram) (st : NGramIndex.ISNState α)
    (h1 : ∀ m, alookup st.shared m
        = if specOf gr P m = 0 then none else some (specOf gr P m))
    (h2 : ∀ g m, alookup2 st.remaining g m = remSpec gr P g m)
    (h3 : (akeys st.shared).Nodup) :
    (∀ m, alookup (NGramIndex.isnGram gr st g0).shared m
        = if specOf gr (P ++ [g0]) m = 0 then none
          else some (specOf gr (P ++ [g0]) m)) ∧
    (∀ g m, alookup2 (NGramIndex.isnGram gr st g0).remaining g m
        = remSpec gr (P ++ [g0]) g m) ∧
    (akeys (NGramIndex.isnGram gr st g0).shared).Nodup := by
  rcases hb : alookup gr g0 with _ | b
  · rw [isnGram_eq_none gr st g0 hb]
    have hst : ∀ m, storedCount gr g0 m = 0 := by
      intro m
      unfold storedCount alookup2
      rw [hb]
      rfl
    have hs' : ∀ m, specOf gr (P ++ [g0]) m = specOf gr P m := by
      intro m
      rw [specOf_append gr P g0 m, specOf_split gr P g0 m, hst m]
      simp
    refine ⟨fun m => by rw [h1 m, hs' m], ?_, h3⟩
    intro g m
    by_cases hg : g = g0
    · subst hg
      rw [h2 g m]
      unfold remSpec
      rw [hb]
      rfl
    · rw [h2 g m, remSpec_append_ne gr P g0 g m hg]
  · have hnd_b : (akeys b).Nodup := hbnd (g0, b) (alookup_mem _ _ _ hb)
    obtain ⟨f1, f2, f3, f4⟩ := isn_bucket_fold g0 b hnd_b st
    rw [isnGram_eq_some gr st g0 b hb]
    have hcount : (P ++ [g0]).count g0 = P.count g0 + 1 := by
      rw [List.count_append]
      simp
    refine ⟨?_, ?_, f4 h3⟩
    · intro m
      by_cases hmb : m ∈ akeys b
      · obtain ⟨c, hc⟩ := mem_akeys.mp hmb
        have hbc : alookup b m = some c := mem_alookup b m c hnd_b hc
        have hst : storedCount gr g0 m = c := by
          unfold storedCount alookup2
          rw [hb]
          simp [hbc]
        have hr : (alookup2 st.remaining g0 m).getD c = c - P.count g0 := by
          rw [h2 g0 m]
          unfold remSpec
          rw [hb]
          simp only [Option.some_bind]
          by_cases hp : g0 ∈ P
          · rw [if_pos hp, hbc]
            rfl
          · rw [if_neg hp, List.count_eq_zero_of_not_mem hp]
            rfl
        obtain ⟨r1, r2⟩ := f3 m c hc
        rw [r2, hr]
        by_cases hlt : P.count g0 < c
        · have hs' : specOf gr (P ++ [g0]) m = specOf gr P m + 1 := by
            rw [specOf_append gr P g0 m, specOf_split gr P g0 m, hst]
            have hm : min (P.count g0 + 1) c = min (P.count g0) c + 1 := by omega
            omega
          rw [if_pos (by omega), h1 m, hs']
          by_cases hz : specOf gr P m = 0
          · rw [if_pos hz, hz]
            simp
          · rw [if_neg hz, if_neg (by omega)]
            simp
        · have hs' : specOf gr (P ++ [g0]) m = specOf gr P m := by
            rw [specOf_append gr P g0 m, specOf_split gr P g0 m, hst]
            have hm : min (P.count g0 + 1) c = min (P.count g0) c := by omega
            rw [hm]
          rw [if_neg (by omega), h1 m, hs']
      · obtain ⟨r1, r2⟩ := f2 m hmb
        have hst : storedCount gr g0 m = 0 := by
          unfold storedCount alookup2
          rw [hb]
          simp [(alookup_eq_none_iff b m).mpr hmb]
        have hs' : specOf gr (P ++ [g0]) m = specOf gr P m := by
          rw [specOf_append gr P g0 m, specOf_split gr P g0 m, hst]
          simp
        rw [r2, h1 m, hs']
    · intro g m
      by_cases hg : g = g0
      · subst hg
        by_cases hmb : m ∈ akeys b
        · obtain ⟨c, hc⟩ := mem_akeys.mp hmb
          have hbc : alookup b m = some c := mem_alookup b m c hnd_b hc
          have hr : (alookup2 st.remaining g m).getD c = c - P.count g := by
            rw [h2 g m]
            unfold remSpec
            rw [hb]
            simp only [Option.some_bind]
            by_cases hp : g ∈ P
            · rw [if_pos hp, hbc]
              rfl
            · rw [if_neg hp, List.count_eq_zero_of_not_mem hp]
              rfl
          obtain ⟨r1, r2⟩ := f3 m c hc
          rw [r1, hr]
          unfold remSpec
          rw [hb]
          simp only [Option.some_bind]
          rw [if_pos (List.mem_append_right _ (List.mem_singleton.mpr rfl)), hbc,
            hcount]
          refine congrArg some ?_
          simp only [Option.map_some]
          omega
        · obtain ⟨r1, r2⟩ := f2 m hmb
          rw [r1, h2 g m]
          unfold remSpec
          rw [hb]
          simp [(alookup_eq_none_iff b m).mpr hmb]
      · have hgram : alookup (b.foldl (NGramIndex.isnEntry g0) st).remaining g
            = alookup st.remaining g := f1 g hg
        unfold alookup2
        rw [hgram]
        have := h2 g m
        unfold alookup2 at this
        rw [this, remSpec_append_ne gr P g0 g m hg]

/-- Invariant of the outer fold of `items_sharing_ngrams` over any prefix of
the query's n-gram occurrence list. -/
theorem isn_fold_inv (gr : List (Gram × Bucket α))
    (hbnd : ∀ p ∈ gr, (akeys p.2).Nodup) (P : List Gram) :
    (∀ m, alookup ((P.foldl (NGramIndex.isnGram gr) ⟨[], []⟩).shared) m
        = if specOf gr P m = 0 then none else some (specOf gr P m)) ∧
    (∀ g m, alookup2 ((P.foldl (NGramIndex.isnGram gr) ⟨[], []⟩).remaining) g m
        = remSpec gr P g m) ∧
    (akeys (P.foldl (NGramIndex.isnGram gr) ⟨[], []⟩).shared).Nodup := by
  induction P using List.reverseRecOn with
  | nil =>
    refine ⟨?_, ?_, ?_⟩
    · intro m
      have hz : specOf gr ([] : List Gram) m = 0 := by simp [specOf]
      rw [hz]
      rfl
    · intro g m
      unfold remSpec
      rcases alookup gr g with _ | b <;> simp [alookup2, alookup_nil]
    · exact List.nodup_nil
  | append_singleton P g0 ih =>
    obtain ⟨i1, i2, i3⟩ := ih
    have hfold : (P ++ [g0]).foldl (NGramIndex.isnGram gr) ⟨[], []⟩
        = NGramIndex.isnGram gr (P.foldl (NGramIndex.isnGram gr) ⟨[], []⟩) g0 := by
      rw [List.foldl_append]
      rfl
    rw [hfold]
    exact isnGram_step gr hbnd P g0 _ i1 i2 i3

/-- Characterisation of `items_sharing_ngrams`: the result is a dictionary
(no duplicate keys) whose value at `m`, when present, is the
multiset-intersection shared count, and which has an entry exactly for the
members whose shared count is positive. -/
theorem items_sharing_spec (s : NGramIndex α) (q : List Char)
    (hbnd : ∀ p ∈ s.grams, (akeys p.2).Nodup) :
    (∀ m, alookup (s.items_sharing_ngrams q) m
        = if sharedSpec s q m = 0 then none else some (sharedSpec s q m)) ∧
    (akeys (s.items_sharing_ngrams q)).Nodup := by
  obtain ⟨i1, i2, i3⟩ := isn_fold_inv s.grams hbnd (s.split q)
  exact ⟨i1, i3⟩

/-- Every entry of `items_sharing_ngrams` is a member with a `length`
entry, on a well-formed index. -/
theorem shared_member_has_length (s : NGramIndex α) (hWF : WF s) (q : List Char)
    (mg : α × ℕ) (hmg : mg ∈ s.items_sharing_ngrams q) :
    (alookup s.length mg.1).isSome := by
  obtain ⟨w1, w2, w3, w4, w5, w6, w7⟩ := hWF
  obtain ⟨i1, i3⟩ := items_sharing_spec s q w6
  have halk : alookup (s.items_sharing_ngrams q) mg.1 = some mg.2 := by
    obtain ⟨m, c⟩ := mg
    exact mem_alookup _ _ _ i3 hmg
  rw [i1 mg.1] at halk
  have hspec : sharedSpec s q mg.1 ≠ 0 := by
    intro hz
    rw [if_pos hz] at halk
    exact Option.noConfusion halk
  have hex : ∃ g ∈ (s.split q).toFinset,
      min ((s.split q).count g) (storedCount s.grams g mg.1) ≠ 0 :=
    Finset.exists_ne_zero_of_sum_ne_zero hspec
  obtain ⟨g, _, hgne⟩ := hex
  have hstored : storedCount s.grams g mg.1 ≠ 0 := by
    intro hz
    rw [hz] at hgne
    simp at hgne
  rw [alookup_isSome_iff]
  refine w4 mg.1 ?_
  unfold storedCount at hstored
  rcases h2 : alookup2 s.grams g mg.1 with _ | c
  · rw [h2] at hstored
    simp at hstored
  · unfold alookup2 at h2
    rcases hbk : alookup s.grams g with _ | b
    · rw [hbk] at h2
      simp at h2
    · rw [hbk] at h2
      simp at h2
      exact w7 (g, b) (alookup_mem _ _ _ hbk) (mg.1, c) (alookup_mem _ _ _ h2)

/-- The result-accumulating fold of `search` never raises when every
candidate has a `length` entry, and collects exactly the candidates whose
similarity reaches the threshold, in order. -/
theorem search_fold_char (s : NGramIndex α) (q : List Char) (t : ℚ)
    (l : List (α × ℕ)) (hl : ∀ mg ∈ l, (alookup s.length mg.1).isSome)
    (acc : List (α × ℝ)) :
    ∃ r, l.foldl (NGramIndex.searchStep s q t) (some acc) = some r ∧
      (∀ p, p ∈ r ↔ (p ∈ acc ∨ ∃ mg ∈ l,
        p = (mg.1, NGramIndex.simVal s q mg)
          ∧ ((t : ℝ) ≤ NGramIndex.simVal s q mg))) := by
  induction l generalizing acc with
  | nil =>
    exact ⟨acc, rfl, by simp⟩
  | cons mg0 rest ih =>
    have h0 := hl mg0 (List.mem_cons_self _ _)
    rcases hlen : alookup s.length mg0.1 with _ | mlen
    · rw [hlen] at h0
      simp at h0
    · have hstep : ∀ a, NGramIndex.searchStep s q t (some a) mg0
          = if (t : ℝ) ≤ NGramIndex.simVal s q mg0
            then some (a ++ [(mg0.1, NGramIndex.simVal s q mg0)]) else some a := by
        intro a
        unfold NGramIndex.searchStep NGramIndex.simVal
        rw [hlen]
        rfl
      rw [List.foldl_cons, hstep acc]
      by_cases hcmp : (t : ℝ) ≤ NGramIndex.simVal s q mg0
      · rw [if_pos hcmp]
        obtain ⟨r, hr, hmem⟩ := ih (fun mg hmg => hl mg (List.mem_cons_of_mem _ hmg))
          (acc ++ [(mg0.1, NGramIndex.simVal s q mg0)])
        refine ⟨r, hr, ?_⟩
        intro p
        rw [hmem p, List.mem_append, List.mem_singleton]
        constructor
        · rintro ((h | h) | h)
          · exact Or.inl h
          · exact Or.inr ⟨mg0, List.mem_cons_self _ _, h, hcmp⟩
          · obtain ⟨mg, hmg, he, hc⟩ := h
            exact Or.inr ⟨mg, List.mem_cons_of_mem _ hmg, he, hc⟩
        · rintro (h | h)
          · exact Or.inl (Or.inl h)
          · obtain ⟨mg, hmg, he, hc⟩ := h
            rcases List.mem_cons.mp hmg with h1 | h1
            · subst h1
              exact Or.inl (Or.inr he)
            · exact Or.inr ⟨mg, h1, he, hc⟩
      · rw [if_neg hcmp]
        obtain ⟨r, hr, hmem⟩ := ih (fun mg hmg => hl mg (List.mem_cons_of_mem _ hmg)) acc
        refine ⟨r, hr, ?_⟩
        intro p
        rw [hmem p]
        constructor
        · rintro (h | h)
          · exact Or.inl h
          · obtain ⟨mg, hmg, he, hc⟩ := h
            exact Or.inr ⟨mg, List.mem_cons_of_mem _ hmg, he, hc⟩
        · rintro (h | h)
          · exact Or.inl h
          · obtain ⟨mg, hmg, he, hc⟩ := h
            rcases List.mem_cons.mp hmg with h1 | h1
            · subst h1
              exact absurd hc hcmp
            · exact Or.inr ⟨mg, h1, he, hc⟩

theorem sortDesc_sorted (l : List (α × ℝ)) :
    List.Sorted (fun a b : α × ℝ => b.2 ≤ a.2) (NGramIndex.sortDesc l) := by
  unfold NGramIndex.sortDesc
  haveI : IsTotal (α × ℝ) (fun a b => b.2 ≤ a.2) := ⟨fun a b => le_total b.2 a.2⟩
  haveI : IsTrans (α × ℝ) (fun a b => b.2 ≤ a.2) :=
    ⟨fun _ _ _ h1 h2 => le_trans h2 h1⟩
  exact List.sorted_insertionSort _ l

theorem sortDesc_mem (l : List (α × ℝ)) (p : α × ℝ) :
    p ∈ NGramIndex.sortDesc l ↔ p ∈ l := by
  unfold NGramIndex.sortDesc
  exact (List.perm_insertionSort _ l).mem_iff

/-- Characterisation of `search`: on a well-formed index it never raises,
returns a list sorted by non-increasing similarity, and contains exactly
the pairs `(member, similarity)` over the candidates sharing an n-gram with
the query whose similarity reaches the effective threshold. -/
theorem search_char (s : NGramIndex α) (hWF : WF s) (q : List Char) (t? : Option ℚ) :
    ∃ r, s.search? q t? = some r ∧
      List.Sorted (fun a b : α × ℝ => b.2 ≤ a.2) r ∧
      (∀ p, p ∈ r ↔ ∃ sg, (p.1, sg) ∈ s.items_sharing_ngrams q ∧
        p.2 = NGramIndex.simVal s q (p.1, sg) ∧
        ((t?.getD s.threshold : ℚ) : ℝ) ≤ p.2) := by
  obtain ⟨r0, hr0, hmem0⟩ := search_fold_char s q (t?.getD s.threshold)
    (s.items_sharing_ngrams q) (fun mg hmg => shared_member_has_length s hWF q mg hmg) []
  refine ⟨NGramIndex.sortDesc r0, ?_, sortDesc_sorted r0, ?_⟩
  · show Option.map NGramIndex.sortDesc
      (List.foldl (s.searchStep q (t?.getD s.threshold)) (some [])
        (s.items_sharing_ngrams q)) = _
    rw [hr0]
    rfl
  · intro p
    rw [sortDesc_mem r0 p, hmem0 p]
    simp only [List.not_mem_nil, false_or]
    constructor
    · rintro ⟨mg, hmg, he, hc⟩
      refine ⟨mg.2, ?_, ?_, ?_⟩
      · have : (p.1, mg.2) = mg := by
          rw [he]
        rw [this]
        exact hmg
      · rw [he]
      · rw [he]
        exact hc
    · rintro ⟨sg, hsg, he, hc⟩
      refine ⟨(p.1, sg), hsg, ?_, ?_⟩
      · exact Prod.ext rfl he
      · rw [← he]
        exact hc

end SharedCount

section CompareSelf

theorem splitNoPad_length (N : ℕ) (y : List Char) :
    (NGramIndex.splitNoPad N y).length = y.length + 1 - N := by
  simp [NGramIndex.splitNoPad]

theorem similarityFn_self (k : ℤ) (hk : k ≠ 0) : similarityFn k k 1 = 1 := by
  unfold similarityFn
  rw [if_pos (by norm_num)]
  rw [div_self (by exact_mod_cast hk)]

theorem list_sum_count (l : List Gram) : ∑ g ∈ l.toFinset, l.count g = l.length := by
  have hinst : (instBEqOfDecidableEq : BEq Gram) = (inferInstance : BEq Gram) :=
    lawful_beq_subsingleton _ _
  have h := List.sum_toFinset_count_eq_length l
  rw [hinst] at h
  exact h

theorem emptyDefault_WF : WF emptyDefault := by decide

theorem emptyDefault_pad_length (x : List Char) :
    (emptyDefault.pad x).length = x.length + 4 := by
  show (emptyDefault.padding ++ x ++ emptyDefault.padding).length = x.length + 4
  rw [List.length_append, List.length_append]
  show 2 + x.length + 2 = x.length + 4
  omega

/-- Evaluation of `NGram.compare(s, s)` with the default configuration: the
single-member index shares every one of its `len(padded) - N + 1` n-grams
with the identical query, `allgrams` collapses to the same number, and the
warp-1 similarity is exactly 1. -/
theorem compare_self_eval (x : List Char)
    (h : emptyDefault.N ≤ (emptyDefault.pad x).length) :
    compare? x x = some 1 := by
  have hx0 : x ∉ emptyDefault.members := List.not_mem_nil x
  have hWFidx : WF (emptyDefault.add x) := WF_add emptyDefault x emptyDefault_WF
  obtain ⟨v1, v2, v3, v4, v5, v6, v7⟩ := hWFidx
  have hlen4 : (emptyDefault.pad x).length = x.length + 4 := emptyDefault_pad_length x
  have hK : (emptyDefault.split x).length = x.length + 2 := by
    show (NGramIndex.splitNoPad emptyDefault.N (emptyDefault.pad x)).length = _
    rw [splitNoPad_length, hlen4]
    rfl
  have hgr_e : (emptyDefault.add x).grams =
      (emptyDefault.split x).foldl
        (fun gr g => NGramIndex.addGramOne gr g x) [] := by
    rw [NGramIndex.add_grams _ _ hx0]
    rfl
  have hstored_x : ∀ g, storedCount (emptyDefault.add x).grams g x
      = if g ∈ emptyDefault.split x then (emptyDefault.split x).count g else 0 := by
    intro g
    unfold storedCount
    rw [hgr_e, addFold_self]
    by_cases hgL : g ∈ emptyDefault.split x
    · rw [if_pos hgL, if_pos hgL]
      simp [alookup2]
    · rw [if_neg hgL, if_neg hgL]
      rfl
  have hstored_m : ∀ m, m ≠ x → ∀ g,
      storedCount (emptyDefault.add x).grams g m = 0 := by
    intro m hm g
    unfold storedCount
    rw [hgr_e, addFold_other_member _ _ _ _ _ hm]
    rfl
  have hsplit_idx : (emptyDefault.add x).split x = emptyDefault.split x :=
    NGramIndex.add_split emptyDefault x x
  have hspec_x : sharedSpec (emptyDefault.add x) x x = x.length + 2 := by
    unfold sharedSpec specOf
    rw [hsplit_idx, ← hK]
    rw [Finset.sum_congr rfl (fun g hg => by
      rw [hstored_x g, if_pos (List.mem_toFinset.mp hg), Nat.min_self])]
    exact list_sum_count (emptyDefault.split x)
  have hspec_m : ∀ m, m ≠ x → sharedSpec (emptyDefault.add x) x m = 0 := by
    intro m hm
    unfold sharedSpec specOf
    rw [hsplit_idx]
    refine Finset.sum_eq_zero (fun g _ => ?_)
    rw [hstored_m m hm g]
    simp
  have hisn : (emptyDefault.add x).items_sharing_ngrams x
      = [(x, x.length + 2)] := by
    obtain ⟨c1, c2⟩ := items_sharing_spec (emptyDefault.add x) x v6
    refine alookup_char_single _ x (x.length + 2) c2 ?_
    intro m
    rw [c1 m]
    by_cases hm : m = x
    · subst hm
      rw [hspec_x, if_neg (by omega), if_pos rfl]
    · rw [hspec_m m hm, if_pos rfl, if_neg hm]
  have hlenx : alookup (emptyDefault.add x).length x = some (x.length + 4) := by
    rw [NGramIndex.add_length _ _ hx0]
    show alookup (aset emptyDefault.length x (emptyDefault.pad x).length) x = _
    rw [alookup_aset_self, hlen4]
  have hag : (emptyDefault.add x).allgramsVal x (x.length + 4) (x.length + 2)
      = ((x.length : ℤ) + 2) := by
    unfold NGramIndex.allgramsVal
    rw [NGramIndex.add_pad, NGramIndex.add_N, hlen4]
    show ((x.length + 4 : ℕ) : ℤ) + ((x.length + 4 : ℕ) : ℤ)
        - 2 * ((3 : ℕ) : ℤ) - ((x.length + 2 : ℕ) : ℤ) + 2 = _
    push_cast
    ring
  have hwarp : (emptyDefault.add x).warp = 1 := NGramIndex.add_warp emptyDefault x
  have hthr : (emptyDefault.add x).threshold = 0 := NGramIndex.add_threshold emptyDefault x
  have hstep1 : NGramIndex.searchStep (emptyDefault.add x) x
      ((none : Option ℚ).getD (emptyDefault.add x).threshold)
      (some []) (x, x.length + 2) = some [(x, (1 : ℝ))] := by
    unfold NGramIndex.searchStep
    rw [hlenx]
    show (if (((none : Option ℚ).getD (emptyDefault.add x).threshold : ℚ) : ℝ)
          ≤ similarityFn ((x.length + 2 : ℕ) : ℤ)
              ((emptyDefault.add x).allgramsVal x (x.length + 4) (x.length + 2))
              (emptyDefault.add x).warp
        then some ([] ++ [(x, similarityFn ((x.length + 2 : ℕ) : ℤ)
              ((emptyDefault.add x).allgramsVal x (x.length + 4) (x.length + 2))
              (emptyDefault.add x).warp)])
        else some []) = some [(x, (1 : ℝ))]
    have hsim : similarityFn ((x.length + 2 : ℕ) : ℤ)
        ((emptyDefault.add x).allgramsVal x (x.length + 4) (x.length + 2))
        (emptyDefault.add x).warp = 1 := by
      rw [hag, hwarp]
      have he : ((x.length + 2 : ℕ) : ℤ) = ((x.length : ℤ) + 2) := by push_cast; ring
      rw [he]
      exact similarityFn_self _ (by omega)
    rw [hsim, hthr]
    rw [if_pos (by norm_num)]
    rfl
  have hsearch : (emptyDefault.add x).search? x none = some [(x, (1 : ℝ))] := by
    unfold NGramIndex.search?
    rw [hisn]
    show Option.map NGramIndex.sortDesc
      (List.foldl (NGramIndex.searchStep (emptyDefault.add x) x
        ((none : Option ℚ).getD (emptyDefault.add x).threshold)) (some [])
        [(x, x.length + 2)]) = _
    rw [List.foldl_cons, hstep1, List.foldl_nil]
    rfl
  show ((ngramOf [x]).search? x none).map _ = some 1
  have hng : ngramOf [x] = emptyDefault.add x := rfl
  rw [hng, hsearch]
  rfl

end CompareSelf

section Claims

/-- C1: the claim states that `remove(item)` never raises for a well-formed
item — a no-op when absent, otherwise deleting the member's entry for each
distinct n-gram, "in particular ... even when some n-gram occurs more than
once in the item's padded key".  The code violates this: the deletion loop
iterates over every n-gram occurrence and `del self._grams[ngram][item]`
a second time for a repeated n-gram raises `KeyError`.  For
`NGram(['aaaa'])` (default configuration, padded key `'$$aaaa$$'`, n-gram
`'aaa'` occurring twice), `remove('aaaa')` raises; removal of an absent
item is indeed a no-op. -/
theorem claim_C1_remove_raises :
    ((ngramOf [String.toList "aaaa"]).removeRun (String.toList "aaaa")).1 = true ∧
    emptyDefault.removeRun (String.toList "ham") = (false, emptyDefault) :=
  ⟨by decide, rfl⟩

/-- C2: `items_sharing_ngrams(query)` returns a mapping (no duplicate keys)
that contains exactly the members sharing at least one n-gram with the
padded query, each mapped to the sum over distinct n-grams of
`min(query count, stored count)` — the multiset-intersection count
(`sharedSpec`).  The hypothesis is the dictionary invariant that buckets
have no duplicate keys, which every reachable index state satisfies. -/
theorem claim_C2_items_sharing_ngrams {α : Type} [DecidableEq α] (s : NGramIndex α)
    (hbnd : ∀ p ∈ s.grams, (akeys p.2).Nodup) (q : List Char) :
    (akeys (s.items_sharing_ngrams q)).Nodup ∧
    (∀ m, alookup (s.items_sharing_ngrams q) m
      = if sharedSpec s q m = 0 then none else some (sharedSpec s q m)) := by
  obtain ⟨c1, c2⟩ := items_sharing_spec s q hbnd
  exact ⟨c2, c1⟩

/-- Witness for C2 at the documented scenario `NGram(["ham","spam","eggs"])`
queried with `"mam"`. -/
theorem claim_C2_witness :
    (∀ p ∈ (ngramOf [String.toList "ham", String.toList "spam",
        String.toList "eggs"]).grams, (akeys p.2).Nodup) ∧
    ((akeys ((ngramOf [String.toList "ham", String.toList "spam",
        String.toList "eggs"]).items_sharing_ngrams (String.toList "mam"))).Nodup ∧
      (∀ m, alookup ((ngramOf [String.toList "ham", String.toList "spam",
          String.toList "eggs"]).items_sharing_ngrams (String.toList "mam")) m
        = if sharedSpec (ngramOf [String.toList "ham", String.toList "spam",
            String.toList "eggs"]) (String.toList "mam") m = 0 then none
          else some (sharedSpec (ngramOf [String.toList "ham", String.toList "spam",
            String.toList "eggs"]) (String.toList "mam") m))) :=
  ⟨by decide, claim_C2_items_sharing_ngrams _ (by decide) _⟩

/-- C3: the claim states that `add(x)` then `remove(x)` on a state not
containing `x` restores observational equality (same members, same `search`
results).  The code violates this: for `x = 'aaaa'` on the empty default
index, `remove` raises `KeyError` partway (first conjunct), leaving stale
`_grams` entries without a `lengths` entry, so a subsequent
`search('aa')` raises `KeyError` (second conjunct: `none`), whereas on the
original empty index it returns `[]` (third conjunct). -/
theorem claim_C3_add_remove_not_observational :
    ((ngramOf [String.toList "aaaa"]).removeRun (String.toList "aaaa")).1 = true ∧
    (((ngramOf [String.toList "aaaa"]).removeRun (String.toList "aaaa")).2).search?
      (String.toList "aa") none = none ∧
    emptyDefault.search? (String.toList "aa") none = some [] :=
  ⟨by decide, rfl, rfl⟩

/-- C4 counterexample: the claim states that `add(x)` then `remove(x)`
restores the internal state node-for-node, including which n-gram buckets
exist.  For `x = "ab"` on the empty default index the removal succeeds but
the `_grams` mapping afterwards still holds the four buckets created by the
insertion, now empty — not identical to the empty mapping. -/
theorem claim_C4_counterexample :
    String.toList "ab" ∉ emptyDefault.members ∧
    ((emptyDefault.add (String.toList "ab")).removeRun (String.toList "ab")).2.grams
      ≠ emptyDefault.grams := by
  decide

/-- C4 amended: for a well-formed state and a fresh item whose padded key
has no repeated n-gram (otherwise `remove` raises, see C1), `add` then
`remove` raises nothing and restores `members`, `lengths` and every
bucket's member entries exactly; but the buckets created for the item's
n-grams remain present (as empty mappings) instead of being deleted. -/
theorem claim_C4_amended {α : Type} [DecidableEq α] (s : NGramIndex α) (x : α)
    (hWF : WF s) (hx : x ∉ s.members) (hnd : (s.splititem x).Nodup) :
    ((s.add x).removeRun x).1 = false ∧
    ((s.add x).removeRun x).2.members = s.members ∧
    ((s.add x).removeRun x).2.length = s.length ∧
    (∀ g m, alookup2 ((s.add x).removeRun x).2.grams g m = alookup2 s.grams g m) ∧
    (∀ g, (alookup ((s.add x).removeRun x).2.grams g).isSome
      ↔ ((alookup s.grams g).isSome ∨ g ∈ s.splititem x)) :=
  add_remove_reversal s x hWF hx hnd

/-- Witness for the amended C4 at `s` empty, `x = "ab"`. -/
theorem claim_C4_witness :
    (WF emptyDefault ∧ String.toList "ab" ∉ emptyDefault.members ∧
      (emptyDefault.splititem (String.toList "ab")).Nodup) ∧
    (((emptyDefault.add (String.toList "ab")).removeRun (String.toList "ab")).1 = false ∧
      ((emptyDefault.add (String.toList "ab")).removeRun
        (String.toList "ab")).2.members = emptyDefault.members ∧
      ((emptyDefault.add (String.toList "ab")).removeRun
        (String.toList "ab")).2.length = emptyDefault.length ∧
      (∀ g m, alookup2 ((emptyDefault.add (String.toList "ab")).removeRun
          (String.toList "ab")).2.grams g m = alookup2 emptyDefault.grams g m) ∧
      (∀ g, (alookup ((emptyDefault.add (String.toList "ab")).removeRun
            (String.toList "ab")).2.grams g).isSome
        ↔ ((alookup emptyDefault.grams g).isSome
            ∨ g ∈ emptyDefault.splititem (String.toList "ab")))) :=
  ⟨⟨by decide, by decide, by decide⟩,
    claim_C4_amended emptyDefault _ (by decide) (by decide) (by decide)⟩

/-- C5: on a well-formed index, `search(query, threshold)` never raises,
returns exactly the `(member, similarity)` pairs — over the candidates
sharing at least one n-gram with the query — whose similarity is at least
the effective threshold (the caller's, or the configured default when
`none` is supplied), and the sequence is sorted by monotonically
non-increasing similarity. -/
theorem claim_C5_search {α : Type} [DecidableEq α] (s : NGramIndex α) (hWF : WF s)
    (q : List Char) (t? : Option ℚ) :
    ∃ r, s.search? q t? = some r ∧
      List.Sorted (fun a b : α × ℝ => b.2 ≤ a.2) r ∧
      (∀ p, p ∈ r ↔ ∃ sg, (p.1, sg) ∈ s.items_sharing_ngrams q ∧
        p.2 = NGramIndex.simVal s q (p.1, sg) ∧
        ((t?.getD s.threshold : ℚ) : ℝ) ≤ p.2) :=
  search_char s hWF q t?

/-- Witness for C5 at the documented scenario `NGram(["SPAM","SPAN","EG"])`
searched with `"SPA"` and the default threshold. -/
theorem claim_C5_witness :
    WF (ngramOf [String.toList "SPAM", String.toList "SPAN", String.toList "EG"]) ∧
    (∃ r, (ngramOf [String.toList "SPAM", String.toList "SPAN",
        String.toList "EG"]).search? (String.toList "SPA") none = some r ∧
      List.Sorted (fun a b : List Char × ℝ => b.2 ≤ a.2) r ∧
      (∀ p, p ∈ r ↔ ∃ sg, (p.1, sg) ∈ (ngramOf [String.toList "SPAM",
          String.toList "SPAN", String.toList "EG"]).items_sharing_ngrams
            (String.toList "SPA") ∧
        p.2 = NGramIndex.simVal (ngramOf [String.toList "SPAM", String.toList "SPAN",
          String.toList "EG"]) (String.toList "SPA") (p.1, sg) ∧
        (((none : Option ℚ).getD (ngramOf [String.toList "SPAM", String.toList "SPAN",
          String.toList "EG"]).threshold : ℚ) : ℝ) ≤ p.2)) :=
  ⟨by decide, claim_C5_search _ (by decide) (String.toList "SPA") none⟩

/-- C6: construction fails with a configuration error exactly when some
parameter is non-conforming — threshold outside `[0,1]`, warp outside
`[1,3]`, `N < 1`, a supplied `pad_len` outside `[0,N)` (an omitted
`pad_len` defaults to `N-1`, always conforming), `pad_char` not a single
character, or a supplied key that is not callable — and otherwise
succeeds. -/
theorem claim_C6_init_validation (threshold warp : ℚ) (N : ℤ) (pad_len : Option ℤ)
    (pad_char : List Char) (key_callable : Bool) :
    initValidate threshold warp N pad_len pad_char key_callable = Except.ok ()
      ↔ ((0 ≤ threshold ∧ threshold ≤ 1) ∧ (1 ≤ warp ∧ warp ≤ 3) ∧ 1 ≤ N ∧
        (∀ p, pad_len = some p → 0 ≤ p ∧ p < N) ∧
        pad_char.length = 1 ∧ key_callable = true) := by
  unfold initValidate
  rcases pad_len with _ | p <;>
    split_ifs with h1 h2 h3 h4 h5 <;>
    simp_all <;>
    first
      | omega
      | (split <;> simp)

/-- Witness for C6 at the default constructor arguments. -/
theorem claim_C6_witness :
    initValidate 0 1 3 none [Char.ofNat 36] true = Except.ok () :=
  (claim_C6_init_validation 0 1 3 none [Char.ofNat 36] true).mpr
    ⟨⟨by norm_num, by norm_num⟩, ⟨by norm_num, by norm_num⟩, by norm_num,
      fun p hp => Option.noConfusion hp, rfl, rfl⟩

/-- C7: with the default configuration and `N ≤ len(padded s)`,
`compare(s, s)` returns exactly `1.0` for every string `s`. -/
theorem claim_C7_compare_self (x : List Char)
    (h : emptyDefault.N ≤ (emptyDefault.pad x).length) :
    compare? x x = some 1 :=
  compare_self_eval x h

/-- Witness for C7 at `s = "ham"`. -/
theorem claim_C7_witness :
    emptyDefault.N ≤ (emptyDefault.pad (String.toList "ham")).length ∧
    compare? (String.toList "ham") (String.toList "ham") = some 1 :=
  ⟨by decide, claim_C7_compare_self _ (by decide)⟩

/-- C8: `_similarity` returns `samegrams / allgrams` when the warp is
within `1e-9` of `1.0` and
`(allgrams**warp - (allgrams-samegrams)**warp) / allgrams**warp`
otherwise; in particular `similarity(5,10,warp=1) = 0.5`,
`similarity(5,10,warp=2) = 0.75` and `similarity(2,4,warp=2) = 0.75`. -/
theorem claim_C8_similarity :
    similarityFn 5 10 1 = 1/2 ∧ similarityFn 5 10 2 = 3/4 ∧
    similarityFn 2 4 2 = 3/4 ∧
    (∀ sg ag : ℤ, ∀ w : ℚ, |w - 1| < 1/1000000000 →
      similarityFn sg ag w = (sg : ℝ) / (ag : ℝ)) ∧
    (∀ sg ag : ℤ, ∀ w : ℚ, ¬(|w - 1| < 1/1000000000) →
      similarityFn sg ag w
        = ((ag : ℝ) ^ ((w : ℚ) : ℝ) - ((ag : ℝ) - (sg : ℝ)) ^ ((w : ℚ) : ℝ))
            / (ag : ℝ) ^ ((w : ℚ) : ℝ)) := by
  refine ⟨?_, ?_, ?_, ?_, ?_⟩
  · unfold similarityFn
    rw [if_pos (by norm_num)]
    norm_num
  · unfold similarityFn
    rw [if_neg (by norm_num)]
    have h2 : ((2 : ℚ) : ℝ) = ((2 : ℕ) : ℝ) := by norm_num
    simp only [h2, Real.rpow_natCast]
    norm_num
  · unfold similarityFn
    rw [if_neg (by norm_num)]
    have h2 : ((2 : ℚ) : ℝ) = ((2 : ℕ) : ℝ) := by norm_num
    simp only [h2, Real.rpow_natCast]
    norm_num
  · intro sg ag w hw
    unfold similarityFn
    rw [if_pos hw]
  · intro sg ag w hw
    unfold similarityFn
    rw [if_neg hw]

/-- Witness for C8's conditional branches at `warp = 1`. -/
theorem claim_C8_witness :
    similarityFn 3 4 1 = ((3 : ℤ) : ℝ) / ((4 : ℤ) : ℝ) :=
  claim_C8_similarity.2.2.2.1 3 4 1 (by norm_num)

/-- C9: `searchitem(item, threshold)` forwards only `self.key(item)` to
`search` — the threshold argument is dropped, so the result always uses the
index's configured default threshold; consequently `finditem`'s threshold
argument has no effect either. -/
theorem claim_C9_searchitem_ignores_threshold {α : Type} [DecidableEq α]
    (s : NGramIndex α) (item : α) (t1 t2 : Option ℚ) :
    s.searchitem? item t1 = s.search? (s.key item) (some s.threshold) ∧
    s.searchitem? item t1 = s.searchitem? item t2 ∧
    s.finditem? item t1 = s.finditem? item t2 :=
  ⟨rfl, rfl, rfl⟩

/-- C10: `symmetric_difference_update(other)` always raises: after
recording the (unused) intersection and inserting all of `other`'s items
via `update`, it calls `self.difference_update(self, intersection)` —
three arguments to a two-parameter method — which raises `TypeError`
unconditionally, leaving the index holding the union rather than the
symmetric difference.  Concretely, on `NGram(['spam','eggs'])` updated
against `{'spam','ham'}`, the call raises and `'spam'` (a member of both
sets) is still a member afterwards. -/
theorem claim_C10_symmetric_difference_update :
    (∀ (β : Type) [DecidableEq β] (s : NGramIndex β) (other : List β),
      NGramIndex.symmetric_difference_update s other
        = (true, NGramIndex.update s other)) ∧
    ((ngramOf [String.toList "spam", String.toList "eggs"]).symmetric_difference_update
      [String.toList "spam", String.toList "ham"]).1 = true ∧
    String.toList "spam" ∈
      ((ngramOf [String.toList "spam",
        String.toList "eggs"]).symmetric_difference_update
        [String.toList "spam", String.toList "ham"]).2.members ∧
    String.toList "ham" ∈
      ((ngramOf [String.toList "spam",
        String.toList "eggs"]).symmetric_difference_update
        [String.toList "spam", String.toList "ham"]).2.members :=
  ⟨fun β _ s other => rfl, rfl, by decide, by decide⟩

end Claims

end NGramVerify
